import Mathlib

/-!
Verification development for the labki-ontology module-dependency-graph core:
the version-bump cascade engine (`version-cascade.js`) and the scope-aware
reference validator (`entity-index.js` / `reference-validator`).

Modelling conventions:
* JS bump-level strings `'major' | 'minor' | 'patch'` become the inductive
  type `Bump` (the spec's `BumpLevel` totally ordered enumeration).
* JS `Map<string, string>` objects holding bumps become association lists
  (`BumpMap`); `Map.get` reads the first matching key, `Map.set` updates in
  place or appends, matching JS `Map` insertion-order semantics.
* The third-party `dependency-graph` npm package (`DepGraph`) is modelled by
  its documented contract: `overallOrder()` returns a topological order of
  all nodes (dependencies before dependents) and throws a
  `Dependency Cycle Found` error exactly when the graph has a cycle;
  `dependenciesOf(n)` returns the transitive dependencies of `n` and throws
  exactly when a cycle is reachable from `n`.  Exceptions are modelled with
  `Option`.
* String splitting on `/` and JS `String.replace('.json','')` (first
  occurrence only) are implemented on character lists with structural
  recursion so that concrete instances evaluate inside the kernel.
-/

/-- Bump levels: the `'major' | 'minor' | 'patch'` strings of the source,
the spec's `BumpLevel` enumeration. -/
inductive Bump where
  | patch
  | minor
  | major
deriving DecidableEq, Repr

/-- Source `BUMP_PRIORITY = { major: 3, minor: 2, patch: 1 }`. -/
def BUMP_PRIORITY : Bump → Nat
  | .major => 3
  | .minor => 2
  | .patch => 1

/-- Loop of `maxBumpType`: walks the array keeping the current maximum and
its priority, replacing it only on strictly greater priority. -/
def maxBumpGo : List Bump → Bump × Nat → Bump
  | [], acc => acc.1
  | b :: rest, acc =>
      if BUMP_PRIORITY b > acc.2 then maxBumpGo rest (b, BUMP_PRIORITY b)
      else maxBumpGo rest acc

/-- Source `maxBumpType(bumps)`: highest bump type in the array, `patch`
for an empty array. -/
def maxBumpType (bumps : List Bump) : Bump :=
  if bumps.length = 0 then .patch
  else maxBumpGo bumps (.patch, BUMP_PRIORITY .patch)

/-- Binary maximum by priority, mirroring one step of the `maxBumpType`
loop. -/
def bmax (a b : Bump) : Bump :=
  if BUMP_PRIORITY b > BUMP_PRIORITY a then b else a

/-- Priority comparison as a Prop. -/
def bLe (a b : Bump) : Prop := BUMP_PRIORITY a ≤ BUMP_PRIORITY b

instance : DecidablePred (fun p : Bump × Bump => bLe p.1 p.2) := by
  intro p; unfold bLe; infer_instance

instance (a b : Bump) : Decidable (bLe a b) := by
  unfold bLe; infer_instance

theorem bLe_refl (a : Bump) : bLe a a := by cases a <;> decide

theorem bLe_trans {a b c : Bump} (h1 : bLe a b) (h2 : bLe b c) : bLe a c := by
  revert h1 h2; cases a <;> cases b <;> cases c <;> decide

theorem bLe_antisymm {a b : Bump} (h1 : bLe a b) (h2 : bLe b a) : a = b := by
  revert h1 h2; cases a <;> cases b <;> decide

theorem bLe_total (a b : Bump) : bLe a b ∨ bLe b a := by
  cases a <;> cases b <;> first | (left; decide) | (right; decide)

theorem bmax_comm (a b : Bump) : bmax a b = bmax b a := by
  cases a <;> cases b <;> decide

theorem bmax_assoc (a b c : Bump) : bmax (bmax a b) c = bmax a (bmax b c) := by
  cases a <;> cases b <;> cases c <;> decide

theorem bmax_idem (a : Bump) : bmax a a = a := by cases a <;> decide

theorem bmax_patch_left (a : Bump) : bmax .patch a = a := by cases a <;> decide

theorem bmax_patch_right (a : Bump) : bmax a .patch = a := by cases a <;> decide

theorem bLe_bmax_left (a b : Bump) : bLe a (bmax a b) := by
  cases a <;> cases b <;> decide

theorem bLe_bmax_right (a b : Bump) : bLe b (bmax a b) := by
  cases a <;> cases b <;> decide

theorem bmax_le {a b c : Bump} (h1 : bLe a c) (h2 : bLe b c) : bLe (bmax a b) c := by
  revert h1 h2; cases a <;> cases b <;> cases c <;> decide

theorem bmax_eq_left_or_right (a b : Bump) : bmax a b = a ∨ bmax a b = b := by
  cases a <;> cases b <;> first | (left; decide) | (right; decide)

/-- Fold form of the `maxBumpType` accumulator loop: the carried priority is
always the priority of the carried maximum, so the pair-loop is a `foldl`
of `bmax`. -/
theorem maxBumpGo_eq_foldl (l : List Bump) (m : Bump) :
    maxBumpGo l (m, BUMP_PRIORITY m) = l.foldl bmax m := by
  induction l generalizing m with
  | nil => rfl
  | cons b rest ih =>
      unfold maxBumpGo
      by_cases h : BUMP_PRIORITY b > BUMP_PRIORITY m
      · simp only [h, if_pos]
        rw [ih]
        have : bmax m b = b := by unfold bmax; simp [h]
        simp [List.foldl, this]
      · simp only [h, if_neg, if_false]
        rw [ih]
        have : bmax m b = m := by unfold bmax; simp [h]
        simp [List.foldl, this]

/-- `maxBumpType` is the `bmax`-fold with seed `patch`. -/
theorem maxBumpType_eq_foldl (l : List Bump) :
    maxBumpType l = l.foldl bmax .patch := by
  unfold maxBumpType
  by_cases h : l.length = 0
  · have : l = [] := List.length_eq_zero.mp h
    simp [this]
  · simp only [h, if_neg, if_false]
    exact maxBumpGo_eq_foldl l .patch

theorem foldl_bmax_mem (l : List Bump) (a : Bump) :
    l.foldl bmax a = a ∨ l.foldl bmax a ∈ l := by
  induction l generalizing a with
  | nil => left; rfl
  | cons b rest ih =>
      simp only [List.foldl]
      rcases ih (bmax a b) with h | h
      · rw [h]
        rcases bmax_eq_left_or_right a b with h2 | h2
        · left; exact h2
        · right; rw [h2]; exact List.mem_cons_self b rest
      · right; exact List.mem_cons_of_mem b h

theorem le_foldl_bmax_init (l : List Bump) (a : Bump) :
    bLe a (l.foldl bmax a) := by
  induction l generalizing a with
  | nil => exact bLe_refl a
  | cons b rest ih =>
      simp only [List.foldl]
      exact bLe_trans (bLe_bmax_left a b) (ih (bmax a b))

theorem le_foldl_bmax_mem {l : List Bump} {x : Bump} (hx : x ∈ l) (a : Bump) :
    bLe x (l.foldl bmax a) := by
  induction l generalizing a with
  | nil => cases hx
  | cons b rest ih =>
      simp only [List.foldl]
      rcases List.mem_cons.mp hx with h | h
      · subst h
        exact bLe_trans (bLe_bmax_right a x) (le_foldl_bmax_init rest (bmax a x))
      · exact ih h (bmax a b)

theorem foldl_bmax_le {l : List Bump} {c : Bump} :
    ∀ {a : Bump}, bLe a c → (∀ x ∈ l, bLe x c) → bLe (l.foldl bmax a) c := by
  induction l with
  | nil => intro a ha _; exact ha
  | cons b rest ih =>
      intro a ha hl
      simp only [List.foldl]
      exact ih (bmax_le ha (hl b (List.mem_cons_self b rest)))
        (fun x hx => hl x (List.mem_cons_of_mem b hx))

/-- Every element of the list is at most `maxBumpType` of the list. -/
theorem le_maxBumpType {l : List Bump} {x : Bump} (hx : x ∈ l) :
    bLe x (maxBumpType l) := by
  rw [maxBumpType_eq_foldl]; exact le_foldl_bmax_mem hx .patch

/-- `maxBumpType` is bounded by any upper bound of the list. -/
theorem maxBumpType_le {l : List Bump} {c : Bump} (hl : ∀ x ∈ l, bLe x c) :
    bLe (maxBumpType l) c := by
  rw [maxBumpType_eq_foldl]
  exact foldl_bmax_le (by cases c <;> decide) hl

/-- On a nonempty list, `maxBumpType` returns an element of the list. -/
theorem maxBumpType_mem {l : List Bump} (hl : l ≠ []) : maxBumpType l ∈ l := by
  rw [maxBumpType_eq_foldl]
  rcases foldl_bmax_mem l .patch with h | h
  · rw [h]
    cases l with
    | nil => exact absurd rfl hl
    | cons b rest =>
        have hle : bLe b (List.foldl bmax Bump.patch (b :: rest)) :=
          le_foldl_bmax_mem (List.mem_cons_self b rest) .patch
        rw [h] at hle
        have : b = Bump.patch := by revert hle; cases b <;> decide
        rw [this]
        exact List.mem_cons_self _ _
  · exact h

/-- Lists with the same members have the same `maxBumpType`. -/
theorem maxBumpType_eq_of_mem_iff {l1 l2 : List Bump}
    (h : ∀ x, x ∈ l1 ↔ x ∈ l2) : maxBumpType l1 = maxBumpType l2 := by
  cases l1 with
  | nil =>
      cases l2 with
      | nil => rfl
      | cons b rest => exact absurd ((h b).mpr (List.mem_cons_self b rest)) (by simp)
  | cons a r1 =>
      cases l2 with
      | nil => exact absurd ((h a).mp (List.mem_cons_self a r1)) (by simp)
      | cons b r2 =>
          apply bLe_antisymm
          · exact maxBumpType_le (fun x hx => le_maxBumpType ((h x).mp hx))
          · exact maxBumpType_le (fun x hx => le_maxBumpType ((h x).mpr hx))

theorem maxBumpType_pair (a b : Bump) : maxBumpType [a, b] = bmax a b := by
  cases a <;> cases b <;> decide

theorem maxBumpType_cons_eq_foldl (h : Bump) (t : List Bump) :
    maxBumpType (h :: t) = t.foldl bmax h := by
  rw [maxBumpType_eq_foldl]
  simp [List.foldl, bmax_patch_left]

/-- Association-list model of a JS `Map` with string keys: `get` reads the
first entry with the key, `set` overwrites in place or appends, preserving
JS `Map` insertion-order iteration. -/
abbrev BumpMap := List (String × Bump)

/-- JS `Map.get(k)`: value of the first entry with key `k`. -/
def mGet {A : Type} (m : List (String × A)) (k : String) : Option A :=
  ((List.find? (fun p => p.1 = k) m)).map (fun p => p.2)

/-- JS `Map.has(k)`. -/
def mHas {A : Type} (m : List (String × A)) (k : String) : Bool := (mGet m k).isSome

/-- JS `Map.set(k, v)`: update an existing entry in place, else append. -/
def mSet {A : Type} (m : List (String × A)) (k : String) (v : A) : List (String × A) :=
  if mHas m k then
    List.map (fun p => if p.1 = k then (k, v) else p) m
  else m ++ [(k, v)]

theorem mGet_nil {A : Type} (k : String) : mGet ([] : List (String × A)) k = none := rfl

theorem mGet_cons {A : Type} (p : String × A) (m : List (String × A)) (k : String) :
    mGet (p :: m) k = if p.1 = k then some p.2 else mGet m k := by
  by_cases hp : p.1 = k
  · rw [if_pos hp]
    unfold mGet
    rw [List.find?_cons_of_pos _ (by simp [hp])]
    rfl
  · rw [if_neg hp]
    unfold mGet
    rw [List.find?_cons_of_neg _ (by simp [hp])]

theorem mHas_cons {A : Type} (p : String × A) (m : List (String × A)) (k : String) :
    mHas (p :: m) k = (p.1 = k || mHas m k) := by
  unfold mHas
  rw [mGet_cons]
  by_cases hp : p.1 = k <;> simp [hp]

theorem mGet_map_overwrite_self {A : Type} (m : List (String × A)) (k : String) (v : A) :
    mGet (List.map (fun p => if p.1 = k then (k, v) else p) m) k =
      if mHas m k then some v else none := by
  induction m with
  | nil => simp [mGet, mHas]
  | cons p rest ih =>
      by_cases hp : p.1 = k
      · simp only [List.map, hp, if_pos]
        rw [mGet_cons, mHas_cons]
        simp [hp]
      · have hent : ((if p.1 = k then (k, v) else p) : String × A) = p := by simp [hp]
        simp only [List.map, hent]
        rw [mGet_cons, mHas_cons, if_neg hp, ih]
        simp [hp]

theorem mGet_append_single_self {A : Type} (m : List (String × A)) (k : String) (v : A) :
    mGet (m ++ [(k, v)]) k = if mHas m k then mGet m k else some v := by
  induction m with
  | nil => simp [mGet, mHas]
  | cons p rest ih =>
      rw [List.cons_append, mGet_cons, mGet_cons, mHas_cons]
      by_cases hp : p.1 = k
      · simp [hp]
      · simp only [hp, decide_False, Bool.false_or, if_neg, if_false]
        exact ih

theorem mGet_mSet_self {A : Type} (m : List (String × A)) (k : String) (v : A) :
    mGet (mSet m k v) k = some v := by
  unfold mSet
  by_cases h : mHas m k
  · rw [if_pos h, mGet_map_overwrite_self, if_pos h]
  · rw [if_neg h, mGet_append_single_self, if_neg h]

theorem mGet_map_overwrite_other {A : Type} (m : List (String × A)) (k k2 : String)
    (v : A) (hk : k2 ≠ k) :
    mGet (List.map (fun p => if p.1 = k then (k, v) else p) m) k2 = mGet m k2 := by
  have hkk : ¬((k : String) = k2) := fun hh => hk hh.symm
  induction m with
  | nil => rfl
  | cons p rest ih =>
      by_cases hp : p.1 = k
      · have hpk2 : ¬(p.1 = k2) := by rw [hp]; exact hkk
        simp only [List.map, hp, if_pos]
        rw [mGet_cons, mGet_cons, if_neg hkk, if_neg hpk2, ih]
      · have hent : ((if p.1 = k then (k, v) else p) : String × A) = p := by simp [hp]
        simp only [List.map, hent]
        rw [mGet_cons, mGet_cons, ih]

theorem mGet_append_single_other {A : Type} (m : List (String × A)) (k k2 : String)
    (v : A) (hk : k2 ≠ k) :
    mGet (m ++ [(k, v)]) k2 = mGet m k2 := by
  have hkk : ¬((k : String) = k2) := fun hh => hk hh.symm
  induction m with
  | nil => simp [mGet, hkk]
  | cons p rest ih =>
      rw [List.cons_append, mGet_cons, mGet_cons, ih]

theorem mGet_mSet_other {A : Type} (m : List (String × A)) (k k2 : String) (v : A)
    (hk : k2 ≠ k) : mGet (mSet m k v) k2 = mGet m k2 := by
  unfold mSet
  by_cases h : mHas m k
  · rw [if_pos h, mGet_map_overwrite_other _ _ _ _ hk]
  · rw [if_neg h, mGet_append_single_other _ _ _ _ hk]

/-- Reference-field values as they appear in entity JSON: absent/null,
a scalar string, or an array of strings. -/
inductive RefVal where
  | null
  | str (s : String)
  | arr (l : List String)
deriving DecidableEq, Repr

/-- An entity record: its JSON fields that hold references or member
lists, plus the `_filePath` metadata attached by `buildEntityIndex`. -/
structure Entity where
  fields : List (String × RefVal)
  filePath : String
deriving DecidableEq, Repr

/-- JS property access `entity[name]`; missing fields read as `null`
(JS `undefined`, falsy). -/
def fGet (e : Entity) (name : String) : RefVal :=
  match List.find? (fun p => p.1 = name) e.fields with
  | some p => p.2
  | none => .null

/-- Source `normalizeToArray(value)`: falsy (absent or empty string) to
`[]`, scalar to singleton, array to itself. -/
def normalizeToArray (v : RefVal) : List String :=
  match v with
  | .null => []
  | .str s => if s = "" then [] else [s]
  | .arr l => l

/-- JS `value || []` followed by `for..of` iteration: arrays iterate their
elements, truthy strings iterate their characters, falsy values give
nothing.  Used for module member lists and bundle module lists. -/
def iterVal (v : RefVal) : List String :=
  match v with
  | .null => []
  | .str s => s.toList.map (fun c => String.mk [c])
  | .arr l => l

/-- The entity index produced by `buildEntityIndex`: one insertion-ordered
map per entity type. -/
structure EntityIndex where
  categories : List (String × Entity)
  properties : List (String × Entity)
  subobjects : List (String × Entity)
  templates : List (String × Entity)
  modules : List (String × Entity)
  bundles : List (String × Entity)
deriving DecidableEq, Repr

/-- JS `entityIndex[entityType]` for the type names used by the
validator. -/
def idxGet (idx : EntityIndex) (ty : String) : List (String × Entity) :=
  if ty = "categories" then idx.categories
  else if ty = "properties" then idx.properties
  else if ty = "subobjects" then idx.subobjects
  else if ty = "templates" then idx.templates
  else if ty = "modules" then idx.modules
  else if ty = "bundles" then idx.bundles
  else []

/-- JS `entityIndex[ty].has(id)`. -/
def idxHas (idx : EntityIndex) (ty : String) (id : String) : Bool :=
  List.any (idxGet idx ty) (fun p => p.1 = id)

/-- String-keyed map used for the reverse module index
(`Map<string, string>` from `"type:id"` to module id). -/
abbrev StrMap := List (String × String)

/-- Source `ENTITY_TYPES`: entity types tracked for versioning and indexed
by the reverse module index. -/
def ENTITY_TYPES : List String := ["categories", "properties", "subobjects", "templates"]

/-- Source `buildReverseModuleIndex(entityIndex)`: maps `"type:id"` to the
module id listing that entity, iterating modules in insertion order and
member types in `ENTITY_TYPES` order. -/
def buildReverseModuleIndex (idx : EntityIndex) : StrMap :=
  List.foldl
    (fun acc (me : String × Entity) =>
      List.foldl
        (fun acc ty =>
          List.foldl (fun acc eid => mSet acc (ty ++ ":" ++ eid) me.1) acc
            (iterVal (fGet me.2 ty)))
        acc ENTITY_TYPES)
    [] idx.modules

/-- Model of the third-party `dependency-graph` `DepGraph` object: the set
of added nodes and the added dependency edges `(dependent, dependency)`. -/
structure DGraph where
  nodes : List String
  edges : List (String × String)
deriving DecidableEq, Repr

/-- Direct dependencies of `m`: targets of edges added with
`addDependency(m, d)` (the library's `outgoingEdges[m]`). -/
def directDeps (G : DGraph) (m : String) : List String :=
  List.map (fun e => e.2) (List.filter (fun e => e.1 = m) G.edges)

/-- The dependent-to-dependency reachability relation of the graph in one
or more steps.  `Reaches G a b` holds when `b` is a (transitive)
dependency of `a`. -/
inductive Reaches (G : DGraph) : String → String → Prop
  | single {a b : String} (h : (a, b) ∈ G.edges) : Reaches G a b
  | cons {a b c : String} (h : (a, b) ∈ G.edges) (t : Reaches G b c) : Reaches G a c

/-- Well-formedness guaranteed by the `DepGraph` class: node keys are
unique and `addDependency` only ever records edges between existing
nodes. -/
def DGraph.WF (G : DGraph) : Prop :=
  G.nodes.Nodup ∧ ∀ e ∈ G.edges, e.1 ∈ G.nodes ∧ e.2 ∈ G.nodes

instance (G : DGraph) : Decidable (DGraph.WF G) := by
  unfold DGraph.WF; infer_instance

/-- The graph has a dependency cycle. -/
def hasCycle (G : DGraph) : Prop := ∃ c, Reaches G c c

theorem Reaches.trans {G : DGraph} {a b c : String}
    (h1 : Reaches G a b) (h2 : Reaches G b c) : Reaches G a c := by
  induction h1 with
  | single h => exact Reaches.cons h h2
  | cons h _ ih => exact Reaches.cons h (ih h2)

theorem mem_directDeps {G : DGraph} {a d : String} :
    d ∈ directDeps G a ↔ (a, d) ∈ G.edges := by
  unfold directDeps
  constructor
  · intro h
    rcases List.mem_map.mp h with ⟨e, he, hed⟩
    have := List.mem_filter.mp he
    have h1 : e.1 = a := by simpa using this.2
    have : e = (a, d) := by
      cases e; simp at h1 hed; simp [h1, hed]
    rw [this] at he
    exact (List.mem_filter.mp he).1
  · intro h
    exact List.mem_map.mpr ⟨(a, d), List.mem_filter.mpr ⟨h, by simp⟩, rfl⟩

theorem reaches_src_mem_nodes {G : DGraph} (hwf : G.WF) {a b : String}
    (h : Reaches G a b) : a ∈ G.nodes := by
  cases h with
  | single h => exact (hwf.2 _ h).1
  | cons h _ => exact (hwf.2 _ h).1

theorem reaches_tgt_mem_nodes {G : DGraph} (hwf : G.WF) {a b : String}
    (h : Reaches G a b) : b ∈ G.nodes := by
  induction h with
  | single h => exact (hwf.2 _ h).2
  | cons _ _ ih => exact ih

/-- Insert an element into an accumulator list unless already present. -/
def insertNew (acc : List String) (d : String) : List String :=
  if d ∈ acc then acc else acc ++ [d]

theorem mem_foldl_insertNew (l : List String) (S : List String) (x : String) :
    x ∈ l.foldl insertNew S ↔ x ∈ S ∨ x ∈ l := by
  induction l generalizing S with
  | nil => simp
  | cons d t ih =>
      simp only [List.foldl]
      rw [ih]
      unfold insertNew
      by_cases hd : d ∈ S
      · simp only [hd, if_pos]
        constructor
        · rintro (h | h)
          · exact Or.inl h
          · exact Or.inr (List.mem_cons_of_mem d h)
        · rintro (h | h)
          · exact Or.inl h
          · rcases List.mem_cons.mp h with h | h
            · exact Or.inl (h ▸ hd)
            · exact Or.inr h
      · simp only [hd, if_neg, if_false]
        simp only [List.mem_append, List.mem_singleton, List.mem_cons]
        tauto

theorem nodup_foldl_insertNew (l : List String) (S : List String) (hS : S.Nodup) :
    (l.foldl insertNew S).Nodup := by
  induction l generalizing S with
  | nil => exact hS
  | cons d t ih =>
      simp only [List.foldl]
      apply ih
      unfold insertNew
      by_cases hd : d ∈ S
      · simpa [hd] using hS
      · simp only [hd, if_neg, if_false]
        exact List.Nodup.append hS (List.nodup_singleton d) (by simpa using hd)

/-- One depClosure round: add every direct dependency of every member. -/
def stepSet (G : DGraph) (S : List String) : List String :=
  (S.bind (directDeps G)).foldl insertNew S

/-- A set closed under taking direct dependencies. -/
def closedSet (G : DGraph) (S : List String) : Prop :=
  ∀ a ∈ S, ∀ d ∈ directDeps G a, d ∈ S

theorem mem_stepSet {G : DGraph} {S : List String} {x : String} :
    x ∈ stepSet G S ↔ x ∈ S ∨ ∃ a ∈ S, x ∈ directDeps G a := by
  unfold stepSet
  rw [mem_foldl_insertNew]
  simp [List.mem_bind]

theorem subset_stepSet {G : DGraph} {S : List String} : S ⊆ stepSet G S := by
  intro x hx
  exact mem_stepSet.mpr (Or.inl hx)

theorem nodup_stepSet {G : DGraph} {S : List String} (h : S.Nodup) :
    (stepSet G S).Nodup := nodup_foldl_insertNew _ _ h

theorem stepSet_eq_of_closed {G : DGraph} {S : List String}
    (h : closedSet G S) : stepSet G S = S := by
  unfold stepSet
  have hsub : ∀ l : List String, (∀ d ∈ l, d ∈ S) → l.foldl insertNew S = S := by
    intro l
    induction l with
    | nil => intro _; rfl
    | cons d t ih =>
        intro hl
        simp only [List.foldl]
        have hd : d ∈ S := hl d (List.mem_cons_self d t)
        rw [show insertNew S d = S from by unfold insertNew; simp [hd]]
        exact ih (fun x hx => hl x (List.mem_cons_of_mem d hx))
  apply hsub
  intro d hd
  rcases List.mem_bind.mp hd with ⟨a, ha, hda⟩
  exact h a ha d hda

/-- Iterated depClosure rounds. -/
def reachAux (G : DGraph) : Nat → List String → List String
  | 0, S => S
  | n + 1, S => reachAux G n (stepSet G S)

theorem reachAux_eq_of_closed {G : DGraph} {S : List String} (h : closedSet G S) :
    ∀ n, reachAux G n S = S := by
  intro n
  induction n with
  | zero => rfl
  | succ n ih =>
      show reachAux G n (stepSet G S) = S
      rw [stepSet_eq_of_closed h, ih]

theorem subset_reachAux {G : DGraph} (n : Nat) (S : List String) :
    S ⊆ reachAux G n S := by
  induction n generalizing S with
  | zero => exact fun x hx => hx
  | succ n ih => exact fun x hx => ih (stepSet G S) (subset_stepSet hx)

theorem nodup_reachAux {G : DGraph} (n : Nat) (S : List String) (h : S.Nodup) :
    (reachAux G n S).Nodup := by
  induction n generalizing S with
  | zero => exact h
  | succ n ih => exact ih (stepSet G S) (nodup_stepSet h)

/-- Elements reachable by the depClosure rounds stay inside the seed plus the
edge targets of the graph. -/
def boundList (G : DGraph) (seed : List String) : List String :=
  seed ++ List.map (fun e => e.2) G.edges

theorem stepSet_subset_bound {G : DGraph} {seed S : List String}
    (h : S ⊆ boundList G seed) : stepSet G S ⊆ boundList G seed := by
  intro x hx
  rcases mem_stepSet.mp hx with hx | ⟨a, _, hd⟩
  · exact h hx
  · unfold boundList
    refine List.mem_append.mpr (Or.inr ?_)
    exact List.mem_map.mpr ⟨(a, x), mem_directDeps.mp hd, rfl⟩

theorem reachAux_subset_bound {G : DGraph} (n : Nat) {seed S : List String}
    (h : S ⊆ boundList G seed) : reachAux G n S ⊆ boundList G seed := by
  induction n generalizing S with
  | zero => exact h
  | succ n ih => exact ih (stepSet_subset_bound h)

theorem length_le_of_nodup_subset {l b : List String} (hn : l.Nodup)
    (hs : l ⊆ b) : l.length ≤ b.length := by
  have h1 : l.toFinset.card = l.length := List.toFinset_card_of_nodup hn
  have h2 : l.toFinset ⊆ b.toFinset := by
    intro x hx
    exact List.mem_toFinset.mpr (hs (List.mem_toFinset.mp hx))
  calc l.length = l.toFinset.card := h1.symm
    _ ≤ b.toFinset.card := Finset.card_le_card h2
    _ ≤ b.length := b.toFinset_card_le

theorem stepSet_length_gt {G : DGraph} {S : List String} (hn : S.Nodup)
    (h : ¬ closedSet G S) : S.length + 1 ≤ (stepSet G S).length := by
  unfold closedSet at h
  push_neg at h
  rcases h with ⟨a, ha, d, hd, hdS⟩
  have hmem : d ∈ stepSet G S := mem_stepSet.mpr (Or.inr ⟨a, ha, hd⟩)
  have hsub : S ⊆ stepSet G S := subset_stepSet
  have hns : (stepSet G S).Nodup := nodup_stepSet hn
  have h1 : insert d S.toFinset ⊆ (stepSet G S).toFinset := by
    intro x hx
    rcases Finset.mem_insert.mp hx with hx | hx
    · exact List.mem_toFinset.mpr (hx ▸ hmem)
    · exact List.mem_toFinset.mpr (hsub (List.mem_toFinset.mp hx))
  have h2 : (insert d S.toFinset).card = S.toFinset.card + 1 :=
    Finset.card_insert_of_not_mem (fun hx => hdS (List.mem_toFinset.mp hx))
  calc S.length + 1 = S.toFinset.card + 1 := by rw [List.toFinset_card_of_nodup hn]
    _ = (insert d S.toFinset).card := h2.symm
    _ ≤ (stepSet G S).toFinset.card := Finset.card_le_card h1
    _ = (stepSet G S).length := List.toFinset_card_of_nodup hns

theorem reachAux_closed_or_grows {G : DGraph} (n : Nat) :
    ∀ S : List String, S.Nodup →
      closedSet G (reachAux G n S) ∨ S.length + n ≤ (reachAux G n S).length := by
  induction n with
  | zero =>
      intro S _
      right
      simp [reachAux]
  | succ n ih =>
      intro S hS
      by_cases hc : closedSet G S
      · left
        show closedSet G (reachAux G n (stepSet G S))
        rw [stepSet_eq_of_closed hc, reachAux_eq_of_closed hc]
        exact hc
      · rcases ih (stepSet G S) (nodup_stepSet hS) with h | h
        · exact Or.inl h
        · right
          show S.length + (n + 1) ≤ (reachAux G n (stepSet G S)).length
          have := stepSet_length_gt hS hc
          omega

/-- Fuel sufficient for the depClosure rounds to saturate. -/
def depClosureFuel (G : DGraph) (seed : List String) : Nat :=
  seed.length + G.edges.length + 1

/-- Transitive depClosure of a seed set under direct dependencies, the set of
nodes a depth-first search of the library visits. -/
def depClosure (G : DGraph) (seed : List String) : List String :=
  reachAux G (depClosureFuel G seed) seed

theorem depClosure_closed {G : DGraph} {seed : List String} (hn : seed.Nodup) :
    closedSet G (depClosure G seed) := by
  rcases reachAux_closed_or_grows (depClosureFuel G seed) seed hn with h | h
  · exact h
  · exfalso
    have hb : reachAux G (depClosureFuel G seed) seed ⊆ boundList G seed :=
      reachAux_subset_bound _ (by intro x hx; exact List.mem_append.mpr (Or.inl hx))
    have hnd : (reachAux G (depClosureFuel G seed) seed).Nodup := nodup_reachAux _ _ hn
    have hlen : (reachAux G (depClosureFuel G seed) seed).length ≤ (boundList G seed).length :=
      length_le_of_nodup_subset hnd hb
    unfold depClosureFuel at h hlen
    unfold boundList at hlen
    simp only [List.length_append, List.length_map] at hlen
    omega

theorem subset_depClosure {G : DGraph} {seed : List String} : seed ⊆ depClosure G seed :=
  subset_reachAux _ _

theorem nodup_depClosure {G : DGraph} {seed : List String} (hn : seed.Nodup) :
    (depClosure G seed).Nodup := nodup_reachAux _ _ hn

theorem closed_mem_of_reaches {G : DGraph} {S : List String} (hc : closedSet G S)
    {a x : String} (ha : a ∈ S) (hr : Reaches G a x) : x ∈ S := by
  induction hr with
  | single h => exact hc _ ha _ (mem_directDeps.mpr h)
  | @cons a b c h _ ih => exact ih (hc _ ha _ (mem_directDeps.mpr h))

theorem reachAux_mem_sound {G : DGraph} (n : Nat) (seed : List String)
    {x : String} (hx : x ∈ reachAux G n seed) :
    x ∈ seed ∨ ∃ a ∈ seed, Reaches G a x := by
  induction n generalizing seed with
  | zero => exact Or.inl hx
  | succ n ih =>
      rcases ih (stepSet G seed) hx with h | ⟨a, ha, hr⟩
      · rcases mem_stepSet.mp h with h | ⟨a, ha, hd⟩
        · exact Or.inl h
        · exact Or.inr ⟨a, ha, Reaches.single (mem_directDeps.mp hd)⟩
      · rcases mem_stepSet.mp ha with h | ⟨b, hb, hd⟩
        · exact Or.inr ⟨a, h, hr⟩
        · exact Or.inr ⟨b, hb, Reaches.trans (Reaches.single (mem_directDeps.mp hd)) hr⟩

/-- Characterization of depClosure membership. -/
theorem mem_depClosure {G : DGraph} {seed : List String} (hn : seed.Nodup) {x : String} :
    x ∈ depClosure G seed ↔ x ∈ seed ∨ ∃ a ∈ seed, Reaches G a x := by
  constructor
  · exact reachAux_mem_sound _ _
  · rintro (h | ⟨a, ha, hr⟩)
    · exact subset_depClosure h
    · exact closed_mem_of_reaches (depClosure_closed hn) (subset_depClosure ha) hr

/-- Deduplicated direct-dependency seed. -/
def seedDeps (G : DGraph) (m : String) : List String :=
  (directDeps G m).foldl insertNew []

theorem mem_seedDeps {G : DGraph} {m x : String} :
    x ∈ seedDeps G m ↔ (m, x) ∈ G.edges := by
  unfold seedDeps
  rw [mem_foldl_insertNew]
  simp [mem_directDeps]

theorem nodup_seedDeps {G : DGraph} {m : String} : (seedDeps G m).Nodup :=
  nodup_foldl_insertNew _ _ List.nodup_nil

/-- Model of the library's `dependenciesOf(m)`: all transitive
dependencies of `m` (the set a successful DFS returns). -/
def dependenciesOfList (G : DGraph) (m : String) : List String :=
  depClosure G (seedDeps G m)

/-- Membership in `dependenciesOf` is exactly reachability. -/
theorem mem_dependenciesOfList {G : DGraph} {m x : String} :
    x ∈ dependenciesOfList G m ↔ Reaches G m x := by
  unfold dependenciesOfList
  rw [mem_depClosure nodup_seedDeps]
  constructor
  · rintro (h | ⟨a, ha, hr⟩)
    · exact Reaches.single (mem_seedDeps.mp h)
    · exact Reaches.trans (Reaches.single (mem_seedDeps.mp ha)) hr
  · intro h
    cases h with
    | single h => exact Or.inl (mem_seedDeps.mpr h)
    | @cons a b c h t => exact Or.inr ⟨b, mem_seedDeps.mpr h, t⟩

/-- Model of the set of nodes a DFS starting at `m` visits: `m` together
with everything reachable from it. -/
def reachableSet (G : DGraph) (m : String) : List String :=
  depClosure G [m]

theorem mem_reachableSet {G : DGraph} {m x : String} :
    x ∈ reachableSet G m ↔ x = m ∨ Reaches G m x := by
  unfold reachableSet
  rw [mem_depClosure (List.nodup_singleton m)]
  simp

theorem nodup_reachableSet {G : DGraph} {m : String} : (reachableSet G m).Nodup :=
  nodup_depClosure (List.nodup_singleton m)

/-- Executable cycle check: some node reaches itself. -/
def hasCycleFound (G : DGraph) : Bool :=
  G.nodes.any (fun c => (dependenciesOfList G c).contains c)

/-- On well-formed graphs the executable check decides `hasCycle`. -/
theorem hasCycle_iff_found {G : DGraph} (hwf : G.WF) :
    hasCycle G ↔ hasCycleFound G = true := by
  unfold hasCycle hasCycleFound
  constructor
  · rintro ⟨c, hc⟩
    refine List.any_eq_true.mpr ⟨c, reaches_src_mem_nodes hwf hc, ?_⟩
    have : c ∈ dependenciesOfList G c := mem_dependenciesOfList.mpr hc
    exact List.elem_eq_true_of_mem this
  · intro h
    rcases List.any_eq_true.mp h with ⟨c, _, hc⟩
    have : c ∈ dependenciesOfList G c := by
      have := List.mem_of_elem_eq_true hc
      exact this
    exact ⟨c, mem_dependenciesOfList.mp this⟩

/-- Sort key used to model a topological order: the size of the node's
reachable set.  In an acyclic graph a dependency has a strictly smaller
reachable set than its dependent. -/
def keyOf (G : DGraph) (n : String) : Nat := (reachableSet G n).length

/-- Key comparison used to order nodes. -/
def keyLe (G : DGraph) (a b : String) : Prop := keyOf G a ≤ keyOf G b

instance (G : DGraph) : DecidableRel (keyLe G) := by
  intro a b; unfold keyLe; infer_instance

/-- Model of the library's `overallOrder()` result in the acyclic case: the
nodes sorted by reachable-set size, which places every dependency before
every module depending on it. -/
def sortedNodes (G : DGraph) : List String :=
  List.insertionSort (keyLe G) G.nodes

/-- Model of `DepGraph.overallOrder()`: `none` models the
`Dependency Cycle Found` exception, otherwise a topological order of all
nodes, dependencies before dependents. -/
def overallOrder (G : DGraph) : Option (List String) :=
  if hasCycleFound G then none else some (sortedNodes G)

theorem sortedNodes_perm (G : DGraph) : (sortedNodes G).Perm G.nodes :=
  List.perm_insertionSort _ _

theorem sortedNodes_sorted (G : DGraph) : List.Sorted (keyLe G) (sortedNodes G) := by
  have htot : IsTotal String (keyLe G) := ⟨fun a b => Nat.le_total _ _⟩
  have htrans : IsTrans String (keyLe G) := ⟨fun a b c => Nat.le_trans⟩
  exact @List.sorted_insertionSort _ (keyLe G) _ htot htrans G.nodes

theorem reachableSet_subset_of_reaches {G : DGraph} {m d : String}
    (h : Reaches G m d) : reachableSet G d ⊆ reachableSet G m := by
  intro x hx
  rcases mem_reachableSet.mp hx with hx | hx
  · exact mem_reachableSet.mpr (Or.inr (hx ▸ h))
  · exact mem_reachableSet.mpr (Or.inr (Reaches.trans h hx))

theorem keyOf_lt_of_reaches {G : DGraph} (hacyc : ¬ hasCycle G) {m d : String}
    (h : Reaches G m d) : keyOf G d < keyOf G m := by
  have hsub : reachableSet G d ⊆ reachableSet G m := reachableSet_subset_of_reaches h
  have hmm : m ∈ reachableSet G m := mem_reachableSet.mpr (Or.inl rfl)
  have hmd : m ∉ reachableSet G d := by
    intro hx
    rcases mem_reachableSet.mp hx with hx | hx
    · exact hacyc ⟨m, hx ▸ h⟩
    · exact hacyc ⟨m, Reaches.trans h hx⟩
  have h1 : (reachableSet G d).toFinset ⊂ (reachableSet G m).toFinset := by
    constructor
    · intro x hx
      exact List.mem_toFinset.mpr (hsub (List.mem_toFinset.mp hx))
    · intro hback
      exact hmd (List.mem_toFinset.mp (hback (List.mem_toFinset.mpr hmm)))
  have h2 := Finset.card_lt_card h1
  unfold keyOf
  rwa [List.toFinset_card_of_nodup nodup_reachableSet,
       List.toFinset_card_of_nodup nodup_reachableSet] at h2

/-- In the sorted order every transitive dependency of a node appears
strictly before it. -/
theorem deps_before {G : DGraph} (hwf : G.WF) (hacyc : ¬ hasCycle G)
    {pre suf : List String} {m : String}
    (hsplit : sortedNodes G = pre ++ m :: suf) {d : String}
    (h : Reaches G m d) : d ∈ pre := by
  have hdn : d ∈ G.nodes := reaches_tgt_mem_nodes hwf h
  have hdo : d ∈ sortedNodes G := ((sortedNodes_perm G).mem_iff).mpr hdn
  have hdm : d ≠ m := by
    intro hh
    exact hacyc ⟨m, hh ▸ h⟩
  rw [hsplit] at hdo
  rcases List.mem_append.mp hdo with hdo | hdo
  · exact hdo
  · rcases List.mem_cons.mp hdo with hdo | hdo
    · exact absurd hdo hdm
    · exfalso
      have hsorted := sortedNodes_sorted G
      rw [hsplit] at hsorted
      have hpair := (List.pairwise_append.mp hsorted).2.1
      have hmd : keyLe G m d := (List.pairwise_cons.mp hpair).1 d hdo
      have := keyOf_lt_of_reaches hacyc h
      unfold keyLe at hmd
      omega

theorem sortedNodes_nodup {G : DGraph} (hwf : G.WF) : (sortedNodes G).Nodup :=
  ((sortedNodes_perm G).nodup_iff).mpr hwf.1

theorem mem_sortedNodes {G : DGraph} {x : String} :
    x ∈ sortedNodes G ↔ x ∈ G.nodes := (sortedNodes_perm G).mem_iff

/-- JS `String.split(sep)` on character lists. -/
def splitOnChar (sep : Char) : List Char → List (List Char)
  | [] => [[]]
  | c :: rest =>
      if c = sep then [] :: splitOnChar sep rest
      else
        match splitOnChar sep rest with
        | [] => [[c]]
        | h :: t => (c :: h) :: t

/-- The characters of the pattern `'.json'`. -/
def jsonSuffix : List Char := ['.', 'j', 's', 'o', 'n']

/-- JS `String.replace('.json', '')`: removes only the first occurrence of
the pattern, scanning left to right. -/
def stripFirst : List Char → List Char
  | [] => []
  | c :: rest =>
      if List.isPrefixOf jsonSuffix (c :: rest) then List.drop 5 (c :: rest)
      else c :: stripFirst rest

/-- Path parsing shared by `calculateModuleBumps` and the orphan filter of
`calculateVersionCascade`: `entityType` is the first `/`-segment,
`entityId` is the last segment with the first `'.json'` occurrence
removed. -/
def deriveEntityTypeId (file : String) : String × String :=
  let parts := splitOnChar '/' file.toList
  let entityType := String.mk (parts.headD [])
  let fileName := parts.getLastD []
  let entityId := String.mk (stripFirst fileName)
  (entityType, entityId)

/-- Reverse-index key `` `${entityType}:${entityId}` `` derived from a
change record's file path. -/
def deriveKey (file : String) : String :=
  (deriveEntityTypeId file).1 ++ ":" ++ (deriveEntityTypeId file).2

/-- ChangeRecord contract produced by the ChangeDetector collaborator. -/
structure ChangeRecord where
  file : String
  entityType : String
  changeType : Bump
deriving DecidableEq, Repr

/-- Loop body of `calculateModuleBumps` for one change record: look up the
owning module of the change's entity, skip orphans, and aggregate with
`maxBumpType`. -/
def moduleBumpStep (rev : StrMap) (moduleBumps : BumpMap) (change : ChangeRecord) :
    BumpMap :=
  match mGet rev (deriveKey change.file) with
  | none => moduleBumps
  | some moduleId =>
      match mGet moduleBumps moduleId with
      | some existingBump =>
          mSet moduleBumps moduleId (maxBumpType [existingBump, change.changeType])
      | none => mSet moduleBumps moduleId change.changeType

/-- Source `calculateModuleBumps(entityIndex, changes)`: aggregate entity
change bumps per owning module through the reverse index, skipping orphan
entities. -/
def calculateModuleBumps (idx : EntityIndex) (changes : List ChangeRecord) : BumpMap :=
  let reverseIndex := buildReverseModuleIndex idx
  changes.foldl (moduleBumpStep reverseIndex) []

/-- Source `buildModuleDependencyGraph(entityIndex)`: one node per module,
one edge per declared dependency that exists as a module. -/
def buildModuleDependencyGraph (idx : EntityIndex) : DGraph :=
  { nodes := idx.modules.map (fun p => p.1),
    edges := idx.modules.bind (fun me =>
      (iterVal (fGet me.2 "dependencies")).filterMap (fun depId =>
        if idx.modules.any (fun p => p.1 = depId) then some (me.1, depId) else none)) }

/-- Loop body of `propagateDependencyCascade` for one module of the
topological order. -/
def cascadeStep (G : DGraph) (cascadedBumps : BumpMap) (moduleId : String) : BumpMap :=
  let deps := dependenciesOfList G moduleId
  let depBumps := deps.filterMap (fun depId => mGet cascadedBumps depId)
  if 0 < depBumps.length then
    let maxDepBump := maxBumpType depBumps
    match mGet cascadedBumps moduleId with
    | some currentBump => mSet cascadedBumps moduleId (maxBumpType [currentBump, maxDepBump])
    | none => mSet cascadedBumps moduleId maxDepBump
  else cascadedBumps

/-- Source `propagateDependencyCascade(moduleGraph, moduleBumps)`: process
modules in `overallOrder()`; on a `Dependency Cycle Found` exception the
catch block returns the untouched copy of the input map. -/
def propagateDependencyCascade (G : DGraph) (moduleBumps : BumpMap) : BumpMap :=
  match overallOrder G with
  | none => moduleBumps
  | some order => order.foldl (cascadeStep G) moduleBumps

/-- Source `calculateBundleBumps(entityIndex, moduleBumps)`: a bundle gets
the max of the bumps of those member modules that have one, and is left
out when none has one. -/
def calculateBundleBumps (idx : EntityIndex) (moduleBumps : BumpMap) : BumpMap :=
  idx.bundles.foldl
    (fun bundleBumps be =>
      let moduleIds := iterVal (fGet be.2 "modules")
      let bumps := moduleIds.filterMap (fun mid => mGet moduleBumps mid)
      if 0 < bumps.length then mSet bundleBumps be.1 (maxBumpType bumps)
      else bundleBumps)
    []

/-- Source `calculateOntologyBump(changes, moduleBumps, bundleBumps)`:
max over the raw change types; the bump-map parameters are declared but
unused.  `none` models a null/undefined `changes` argument. -/
def calculateOntologyBump (changes : Option (List ChangeRecord))
    (moduleBumps bundleBumps : BumpMap) : Bump :=
  match changes with
  | none => .patch
  | some cs =>
      if cs.length = 0 then .patch
      else maxBumpType (cs.map (fun c => c.changeType))

/-- Result record of `calculateVersionCascade`. -/
structure CascadeResult where
  changes : List ChangeRecord
  moduleBumps : BumpMap
  bundleBumps : BumpMap
  ontologyBump : Bump
  orphanChanges : List ChangeRecord
deriving DecidableEq, Repr

/-- Source `calculateVersionCascade(entityIndex, baseBranch)`; the change
list produced by the external `detectChanges` collaborator is passed in
directly, as in spec §4.4. -/
def calculateVersionCascade (idx : EntityIndex) (changes : List ChangeRecord) :
    CascadeResult :=
  if changes.length = 0 then
    { changes := [], moduleBumps := [], bundleBumps := [],
      ontologyBump := .patch, orphanChanges := [] }
  else
    let reverseIndex := buildReverseModuleIndex idx
    let moduleGraph := buildModuleDependencyGraph idx
    let initialModuleBumps := calculateModuleBumps idx changes
    let moduleBumps := propagateDependencyCascade moduleGraph initialModuleBumps
    let bundleBumps := calculateBundleBumps idx moduleBumps
    let ontologyBump := calculateOntologyBump (some changes) moduleBumps bundleBumps
    let orphanChanges := changes.filter
      (fun change => ! mHas reverseIndex (deriveKey change.file))
    { changes := changes, moduleBumps := moduleBumps, bundleBumps := bundleBumps,
      ontologyBump := ontologyBump, orphanChanges := orphanChanges }

/-- Source `REFERENCE_FIELDS`: declarative map of entity types to their
reference fields and target types, in declaration order. -/
def REFERENCE_FIELDS : List (String × List (String × String)) :=
  [ ("categories",
      [ ("parents", "categories"),
        ("required_properties", "properties"),
        ("optional_properties", "properties"),
        ("required_subobjects", "subobjects"),
        ("optional_subobjects", "subobjects") ]),
    ("subobjects",
      [ ("required_properties", "properties"),
        ("optional_properties", "properties") ]),
    ("properties",
      [ ("parent_property", "properties"),
        ("has_display_template", "templates") ]),
    ("modules",
      [ ("categories", "categories"),
        ("properties", "properties"),
        ("subobjects", "subobjects"),
        ("templates", "templates"),
        ("dependencies", "modules") ]),
    ("bundles",
      [ ("modules", "modules") ]) ]

/-- Source `getModuleScope(graph, moduleId)`: own module plus transitive
dependencies; `none` models the `null` returned when `dependenciesOf`
throws `Dependency Cycle Found`, which happens exactly when the DFS from
`moduleId` meets a node lying on a cycle. -/
def getModuleScope (G : DGraph) (moduleId : String) : Option (List String) :=
  if (reachableSet G moduleId).any (fun c => (dependenciesOfList G c).contains c) then
    none
  else some (moduleId :: dependenciesOfList G moduleId)

/-- Source `scopeCheckTypes`: entity types that are module members and get
scope checks. -/
def scopeCheckTypes : List String :=
  ["categories", "properties", "subobjects", "templates"]

/-- Computation of the validator's `moduleScope` local: only entities with
an owning module and a member entity type get a scope resolved. -/
def scopeFor (G : DGraph) (rev : StrMap) (ty eid : String) : Option (List String) :=
  match mGet rev (ty ++ ":" ++ eid) with
  | some sm => if ty ∈ scopeCheckTypes then getModuleScope G sm else none
  | none => none

/-- A structured validator error record. -/
structure RefError where
  file : String
  type : String
  message : String
deriving DecidableEq, Repr

/-- Rendering of a JS template-literal interpolation of a possibly
undefined variable. -/
def showOpt (o : Option String) : String :=
  match o with
  | some s => s
  | none => "undefined"

/-- Body of the innermost loop of `validateReferences`: the checks applied
to one reference id of one declared field of one entity, in order
(self-reference, existence, module scope). -/
def checkOneRef (idx : EntityIndex) (rev : StrMap) (ty eid : String) (e : Entity)
    (sourceModuleId : Option String) (moduleScope : Option (List String))
    (fieldName targetType refId : String) : List RefError :=
  if refId = eid ∧ targetType = ty then
    [ { file := e.filePath, type := "self-reference",
        message := "Self-reference in field \"" ++ fieldName ++ "\": \"" ++ refId
          ++ "\" references itself" } ]
  else if idxHas idx targetType refId = false then
    [ { file := e.filePath, type := "missing-reference",
        message := "Missing reference in field \"" ++ fieldName ++ "\": \"" ++ refId
          ++ "\" does not exist in " ++ targetType } ]
  else
    match moduleScope with
    | some scope =>
        if ty ∈ scopeCheckTypes ∧ targetType ≠ "modules" then
          match mGet rev (targetType ++ ":" ++ refId) with
          | some targetModuleId =>
              if targetModuleId ∉ scope then
                [ { file := e.filePath, type := "scope-violation",
                    message := "Module scope violation in field \"" ++ fieldName
                      ++ "\": \"" ++ refId ++ "\" is in module \"" ++ targetModuleId
                      ++ "\" which is not a dependency of \"" ++ showOpt sourceModuleId
                      ++ "\"" } ]
              else []
          | none => []
        else []
    | none => []

/-- Source `validateReferences(entityIndex)`: iterate every declared
reference field of every entity of every type, pushing each reference's
errors onto one accumulator; returns `(errors, warnings)`. -/
def validateReferences (idx : EntityIndex) : List RefError × List RefError :=
  let moduleGraph := buildModuleDependencyGraph idx
  let reverseModuleIndex := buildReverseModuleIndex idx
  let errors :=
    REFERENCE_FIELDS.foldl
      (fun acc tyfm =>
        (idxGet idx tyfm.1).foldl
          (fun acc ee =>
            let sourceModuleId := mGet reverseModuleIndex (tyfm.1 ++ ":" ++ ee.1)
            let moduleScope := scopeFor moduleGraph reverseModuleIndex tyfm.1 ee.1
            tyfm.2.foldl
              (fun acc ftt =>
                (normalizeToArray (fGet ee.2 ftt.1)).foldl
                  (fun acc refId =>
                    acc ++ checkOneRef idx reverseModuleIndex tyfm.1 ee.1 ee.2
                      sourceModuleId moduleScope ftt.1 ftt.2 refId)
                  acc)
              acc)
          acc)
      []
  (errors, [])

/-- Per-reference error lists flattened in iteration order: the batch
(collect-everything) reading of the validator. -/
def collectedRefErrors (idx : EntityIndex) : List RefError :=
  let moduleGraph := buildModuleDependencyGraph idx
  let reverseModuleIndex := buildReverseModuleIndex idx
  REFERENCE_FIELDS.bind
    (fun tyfm =>
      (idxGet idx tyfm.1).bind
        (fun ee =>
          tyfm.2.bind
            (fun ftt =>
              (normalizeToArray (fGet ee.2 ftt.1)).bind
                (fun refId =>
                  checkOneRef idx reverseModuleIndex tyfm.1 ee.1 ee.2
                    (mGet reverseModuleIndex (tyfm.1 ++ ":" ++ ee.1))
                    (scopeFor moduleGraph reverseModuleIndex tyfm.1 ee.1)
                    ftt.1 ftt.2 refId))))

/-- Digits-only parse of one version component. -/
def parseDigits (l : List Char) : Option Nat :=
  if l = [] then none
  else if l.all (fun c => c.isDigit) then
    some (l.foldl (fun acc c => acc * 10 + (c.toNat - 48)) 0)
  else none

/-- Parse of a three-component dot-separated semantic version. -/
def parseSemVer (v : String) : Option (Nat × Nat × Nat) :=
  match splitOnChar '.' v.toList with
  | [a, b, c] =>
      match parseDigits a, parseDigits b, parseDigits c with
      | some x, some y, some z => some (x, y, z)
      | _, _, _ => none
  | _ => none

/-- Decimal rendering of a natural number. -/
def natToCharsAux : Nat → Nat → List Char → List Char
  | 0, _, acc => acc
  | fuel + 1, n, acc =>
      let d := Char.ofNat (48 + n % 10)
      if n < 10 then d :: acc else natToCharsAux fuel (n / 10) (d :: acc)

/-- Decimal rendering of a natural number as a string. -/
def natToString (n : Nat) : String := String.mk (natToCharsAux (n + 1) n [])

/-- Modelled from the spec: the implementation of
`calculateNewVersion(version, bumpType)` is exported by
`version-cascade.js` but is not among the provided sources (only its unit
tests are).  Per spec §4.4 it applies semantic-version arithmetic —
`major` increments the major component and zeroes minor/patch, `minor`
increments minor and zeroes patch, `patch` increments patch only — and
returns the `null` sentinel (here `none`) when the version does not parse
as three dot-separated non-negative integers or the bump type is absent
or unrecognized, matching the unit tests shipped with the repository. -/
def calculateNewVersion (version : Option String) (bumpType : Option String) :
    Option String :=
  match version with
  | none => none
  | some v =>
      match parseSemVer v with
      | none => none
      | some (ma, mi, pa) =>
          match bumpType with
          | none => none
          | some bt =>
              if bt = "major" then
                some (natToString (ma + 1) ++ "." ++ natToString 0 ++ "." ++ natToString 0)
              else if bt = "minor" then
                some (natToString ma ++ "." ++ natToString (mi + 1) ++ "." ++ natToString 0)
              else if bt = "patch" then
                some (natToString ma ++ "." ++ natToString mi ++ "." ++ natToString (pa + 1))
              else none

/-- C1: for every well-formed module dependency graph containing a cycle
and every input bump map, `propagateDependencyCascade` returns its input
map unchanged: `overallOrder` raises `Dependency Cycle Found`, the catch
block returns the untouched copy, and no exception escapes (the model is
a total function). -/
theorem propagateDependencyCascade_cycle (G : DGraph) (m : BumpMap)
    (hwf : G.WF) (hcyc : hasCycle G) :
    propagateDependencyCascade G m = m := by
  unfold propagateDependencyCascade overallOrder
  rw [if_pos ((hasCycle_iff_found hwf).mp hcyc)]

/-- Witness for C1: a concrete two-module cycle leaves a concrete bump map
untouched. -/
theorem propagateDependencyCascade_cycle_witness :
    DGraph.WF { nodes := ["A", "B"], edges := [("A", "B"), ("B", "A")] } ∧
    hasCycle { nodes := ["A", "B"], edges := [("A", "B"), ("B", "A")] } ∧
    propagateDependencyCascade { nodes := ["A", "B"], edges := [("A", "B"), ("B", "A")] }
      [("A", Bump.minor)] = [("A", Bump.minor)] := by
  have hwf : DGraph.WF { nodes := ["A", "B"], edges := [("A", "B"), ("B", "A")] } := by
    decide
  have hcyc : hasCycle { nodes := ["A", "B"], edges := [("A", "B"), ("B", "A")] } :=
    ⟨"A", Reaches.cons (show ("A", "B") ∈ _ by decide)
      (Reaches.single (show ("B", "A") ∈ _ by decide))⟩
  exact ⟨hwf, hcyc, propagateDependencyCascade_cycle _ _ hwf hcyc⟩

/-- C6: `calculateOntologyBump` ignores its module-bump and bundle-bump
parameters entirely, equals `maxBumpType` over the raw change types, and
is `patch` for an absent or empty change list. -/
theorem calculateOntologyBump_spec :
    (∀ (changes : Option (List ChangeRecord)) (m1 b1 m2 b2 : BumpMap),
        calculateOntologyBump changes m1 b1 = calculateOntologyBump changes m2 b2) ∧
    (∀ (cs : List ChangeRecord) (m b : BumpMap),
        calculateOntologyBump (some cs) m b =
          maxBumpType (cs.map (fun c => c.changeType))) ∧
    (∀ m b : BumpMap, calculateOntologyBump none m b = Bump.patch) ∧
    (∀ m b : BumpMap, calculateOntologyBump (some []) m b = Bump.patch) := by
  refine ⟨?_, ?_, fun _ _ => rfl, fun _ _ => rfl⟩
  · intro changes m1 b1 m2 b2
    cases changes <;> rfl
  · intro cs m b
    cases cs with
    | nil => rfl
    | cons c t => simp [calculateOntologyBump, maxBumpType]

/-- C7: `maxBumpType` is permutation-invariant, idempotent, returns
`patch` on the empty list, and on any nonempty list returns an element of
the list of maximal priority under major > minor > patch. -/
theorem maxBumpType_algebra :
    (∀ l1 l2 : List Bump, l1.Perm l2 → maxBumpType l1 = maxBumpType l2) ∧
    (∀ x : Bump, maxBumpType [x, x] = maxBumpType [x]) ∧
    maxBumpType [] = Bump.patch ∧
    (∀ l : List Bump, l ≠ [] →
        maxBumpType l ∈ l ∧ ∀ x ∈ l, BUMP_PRIORITY x ≤ BUMP_PRIORITY (maxBumpType l)) := by
  refine ⟨?_, ?_, rfl, ?_⟩
  · intro l1 l2 hp
    exact maxBumpType_eq_of_mem_iff (fun x => hp.mem_iff)
  · intro x; cases x <;> decide
  · intro l hl
    exact ⟨maxBumpType_mem hl, fun x hx => le_maxBumpType hx⟩

/-- Witness for C7: the permutation and maximal-element parts applied at
concrete lists. -/
theorem maxBumpType_algebra_witness :
    maxBumpType [Bump.patch, Bump.major] = maxBumpType [Bump.major, Bump.patch] ∧
    maxBumpType [Bump.minor, Bump.patch] ∈ [Bump.minor, Bump.patch] := by
  constructor
  · exact maxBumpType_algebra.1 _ _ (by decide)
  · exact (maxBumpType_algebra.2.2.2 [Bump.minor, Bump.patch] (by decide)).1

/-- C10: the warnings list of `validateReferences` is always empty; every
finding is surfaced through the errors list. -/
theorem validateReferences_warnings_empty (idx : EntityIndex) :
    (validateReferences idx).2 = [] := rfl

/-- C9: `calculateNewVersion` applies semantic-version arithmetic to any
version parsing as three dot-separated non-negative integers, and returns
the `null` sentinel (never throwing: the model is total) when the version
or the bump type is absent or unrecognized. -/
theorem calculateNewVersion_spec :
    (∀ (v : String) (ma mi pa : Nat), parseSemVer v = some (ma, mi, pa) →
        calculateNewVersion (some v) (some "major") =
          some (natToString (ma + 1) ++ "." ++ natToString 0 ++ "." ++ natToString 0) ∧
        calculateNewVersion (some v) (some "minor") =
          some (natToString ma ++ "." ++ natToString (mi + 1) ++ "." ++ natToString 0) ∧
        calculateNewVersion (some v) (some "patch") =
          some (natToString ma ++ "." ++ natToString mi ++ "." ++ natToString (pa + 1))) ∧
    (∀ (v : String) (bt : Option String), parseSemVer v = none →
        calculateNewVersion (some v) bt = none) ∧
    (∀ bt : Option String, calculateNewVersion none bt = none) ∧
    (∀ v : String, calculateNewVersion (some v) none = none) ∧
    (∀ (v : String) (bt : String), bt ≠ "major" → bt ≠ "minor" → bt ≠ "patch" →
        calculateNewVersion (some v) (some bt) = none) := by
  refine ⟨?_, ?_, fun _ => rfl, ?_, ?_⟩
  · intro v ma mi pa h
    refine ⟨?_, ?_, ?_⟩ <;> simp [calculateNewVersion, h]
  · intro v bt h
    cases bt <;> simp [calculateNewVersion, h]
  · intro v
    simp only [calculateNewVersion]
    cases parseSemVer v with
    | none => rfl
    | some t => rcases t with ⟨ma, mi, pa⟩; rfl
  · intro v bt h1 h2 h3
    simp only [calculateNewVersion]
    cases hp : parseSemVer v with
    | none => rfl
    | some t =>
        rcases t with ⟨ma, mi, pa⟩
        simp [h1, h2, h3]

/-- Witness for C9: the spec's concrete examples, obtained from the
theorem at `"1.2.3"` and `"invalid"`. -/
theorem calculateNewVersion_spec_witness :
    parseSemVer "1.2.3" = some (1, 2, 3) ∧
    calculateNewVersion (some "1.2.3") (some "patch") = some "1.2.4" ∧
    calculateNewVersion (some "1.2.3") (some "minor") = some "1.3.0" ∧
    calculateNewVersion (some "1.2.3") (some "major") = some "2.0.0" ∧
    calculateNewVersion (some "invalid") (some "patch") = none := by
  have hp : parseSemVer "1.2.3" = some (1, 2, 3) := by decide
  have h := calculateNewVersion_spec.1 "1.2.3" 1 2 3 hp
  refine ⟨hp, Eq.trans h.2.2 (by decide), Eq.trans h.2.1 (by decide),
    Eq.trans h.1 (by decide), ?_⟩
  exact calculateNewVersion_spec.2.1 "invalid" (some "patch") (by decide)

theorem find?_eq_none_of_not_mem_keys {A : Type} {l : List (String × A)} {bid : String}
    (h : bid ∉ l.map (fun p => p.1)) :
    List.find? (fun p => p.1 = bid) l = none := by
  rw [List.find?_eq_none]
  intro x hx
  simp only [decide_eq_true_eq]
  intro hxk
  exact h (List.mem_map.mpr ⟨x, hx, hxk⟩)

theorem bundleFold_get (mb : BumpMap) :
    ∀ (l : List (String × Entity)) (acc : BumpMap),
      (l.map (fun p => p.1)).Nodup → ∀ bid : String,
      mGet (l.foldl
        (fun bundleBumps be =>
          let moduleIds := iterVal (fGet be.2 "modules")
          let bumps := moduleIds.filterMap (fun mid => mGet mb mid)
          if 0 < bumps.length then mSet bundleBumps be.1 (maxBumpType bumps)
          else bundleBumps) acc) bid =
      match List.find? (fun p => p.1 = bid) l with
      | some be =>
          (fun bumps => if 0 < bumps.length then some (maxBumpType bumps) else mGet acc bid)
            ((iterVal (fGet be.2 "modules")).filterMap (fun mid => mGet mb mid))
      | none => mGet acc bid := by
  intro l
  induction l with
  | nil => intro acc _ bid; rfl
  | cons p t ih =>
      intro acc hnd bid
      have hnd' : (p.1 :: t.map (fun q => q.1)).Nodup := by simpa using hnd
      have hnd1 : p.1 ∉ t.map (fun q => q.1) := (List.nodup_cons.mp hnd').1
      have hnd2 : (t.map (fun q => q.1)).Nodup := (List.nodup_cons.mp hnd').2
      by_cases hb : p.1 = bid
      · subst hb
        rw [List.find?_cons_of_pos _ (by simp)]
        have hnone : List.find? (fun q => q.1 = p.1) t = none :=
          find?_eq_none_of_not_mem_keys hnd1
        simp only [List.foldl]
        by_cases hlen :
            0 < ((iterVal (fGet p.2 "modules")).filterMap (fun mid => mGet mb mid)).length
        · rw [ih _ hnd2 p.1, hnone]
          simp only [hlen, if_pos]
          rw [mGet_mSet_self]
        · rw [ih _ hnd2 p.1, hnone]
          simp only [hlen, if_neg, if_false]
      · rw [List.find?_cons_of_neg _ (by simp [hb])]
        simp only [List.foldl]
        by_cases hlen :
            0 < ((iterVal (fGet p.2 "modules")).filterMap (fun mid => mGet mb mid)).length
        · simp only [hlen, if_pos]
          rw [ih _ hnd2 bid]
          have hms : mGet (mSet acc p.1 (maxBumpType
              ((iterVal (fGet p.2 "modules")).filterMap (fun mid => mGet mb mid)))) bid =
              mGet acc bid :=
            mGet_mSet_other _ _ _ _ (fun hh => hb hh.symm)
          cases List.find? (fun q => q.1 = bid) t with
          | none => exact hms
          | some be => simp only []; rw [hms]
        · simp only [hlen, if_neg, if_false]
          rw [ih _ hnd2 bid]

/-- C8: a bundle appears in `calculateBundleBumps` exactly when some member
module has a bump, in which case its bump is `maxBumpType` over exactly
the member modules' bumps that exist; bundles with no bumped member (and
ids that are not bundles) are absent from the result. -/
theorem calculateBundleBumps_spec (idx : EntityIndex) (mb : BumpMap)
    (hnd : (idx.bundles.map (fun p => p.1)).Nodup) (bid : String) :
    mGet (calculateBundleBumps idx mb) bid =
      match List.find? (fun p => p.1 = bid) idx.bundles with
      | some be =>
          (fun bumps => if 0 < bumps.length then some (maxBumpType bumps) else none)
            ((iterVal (fGet be.2 "modules")).filterMap (fun mid => mGet mb mid))
      | none => none := by
  have h := bundleFold_get mb idx.bundles [] hnd bid
  unfold calculateBundleBumps
  rw [h]
  cases List.find? (fun p => p.1 = bid) idx.bundles with
  | none => rfl
  | some be => rfl

/-- Concrete entity index used by the bundle witness: one bundle with a
bumped member module, one without. -/
def bundleWitnessIdx : EntityIndex :=
  { categories := [], properties := [], subobjects := [], templates := [],
    modules := [],
    bundles :=
      [ ("Default",
          Entity.mk [("modules", RefVal.arr ["Core", "Lab"])] "bundles/Default.json"),
        ("Empty",
          Entity.mk [("modules", RefVal.arr ["Other"])] "bundles/Empty.json") ] }

/-- Witness for C8: a bundle with one bumped member gets that bump, a
bundle with none is absent. -/
theorem calculateBundleBumps_spec_witness :
    (bundleWitnessIdx.bundles.map (fun p => p.1)).Nodup ∧
    mGet (calculateBundleBumps bundleWitnessIdx [("Core", Bump.major)]) "Default" =
      some Bump.major ∧
    mGet (calculateBundleBumps bundleWitnessIdx [("Core", Bump.major)]) "Empty" = none := by
  refine ⟨by decide, ?_, ?_⟩
  · exact Eq.trans (calculateBundleBumps_spec _ _ (by decide) "Default") (by decide)
  · exact Eq.trans (calculateBundleBumps_spec _ _ (by decide) "Empty") (by decide)

theorem foldl_append_bind {A B : Type} {F : List B → A → List B} {f : A → List B}
    (h : ∀ (acc : List B) (x : A), F acc x = acc ++ f x) (l : List A) (a : List B) :
    l.foldl F a = a ++ l.bind f := by
  induction l generalizing a with
  | nil => simp
  | cons x t ih =>
      simp only [List.foldl, h]
      rw [ih]
      simp [List.cons_bind]

/-- C5: the per-reference checks run in order — a self-reference emits
exactly one `self-reference` error and suppresses the existence and scope
checks, a missing target emits exactly one `missing-reference` error and
suppresses the scope check — and the full pass concatenates every
reference's errors across all entities in iteration order, never stopping
at an error. -/
theorem validateReferences_check_order :
    (∀ (idx : EntityIndex) (rev : StrMap) (ty eid : String) (e : Entity)
        (sm : Option String) (ms : Option (List String)) (fn tt refId : String),
        refId = eid → tt = ty →
        checkOneRef idx rev ty eid e sm ms fn tt refId =
          [ { file := e.filePath, type := "self-reference",
              message := "Self-reference in field \"" ++ fn ++ "\": \"" ++ refId
                ++ "\" references itself" } ]) ∧
    (∀ (idx : EntityIndex) (rev : StrMap) (ty eid : String) (e : Entity)
        (sm : Option String) (ms : Option (List String)) (fn tt refId : String),
        ¬(refId = eid ∧ tt = ty) → idxHas idx tt refId = false →
        checkOneRef idx rev ty eid e sm ms fn tt refId =
          [ { file := e.filePath, type := "missing-reference",
              message := "Missing reference in field \"" ++ fn ++ "\": \"" ++ refId
                ++ "\" does not exist in " ++ tt } ]) ∧
    (∀ idx : EntityIndex, (validateReferences idx).1 = collectedRefErrors idx) := by
  refine ⟨?_, ?_, ?_⟩
  · intro idx rev ty eid e sm ms fn tt refId h1 h2
    unfold checkOneRef
    rw [if_pos ⟨h1, h2⟩]
  · intro idx rev ty eid e sm ms fn tt refId h1 h2
    unfold checkOneRef
    rw [if_neg h1, if_pos h2]
  · intro idx
    unfold validateReferences collectedRefErrors
    dsimp only
    refine Eq.trans (foldl_append_bind ?_ REFERENCE_FIELDS []) (List.nil_append _)
    intro acc tyfm
    refine Eq.trans (foldl_append_bind ?_ (idxGet idx tyfm.1) acc) rfl
    intro acc ee
    refine Eq.trans (foldl_append_bind ?_ tyfm.2 acc) rfl
    intro acc ftt
    exact foldl_append_bind (fun acc refId => rfl) _ acc

/-- Witness for C5: the self-reference and missing-reference branches at
concrete inputs. -/
theorem validateReferences_check_order_witness :
    checkOneRef (EntityIndex.mk [] [] [] [] [] []) [] "categories" "Agent"
        (Entity.mk [] "categories/Agent.json") none none "parents" "categories" "Agent" =
      [ { file := "categories/Agent.json", type := "self-reference",
          message := "Self-reference in field \"parents\": \"Agent\" references itself" } ] ∧
    checkOneRef (EntityIndex.mk [] [] [] [] [] []) [] "categories" "Agent"
        (Entity.mk [] "categories/Agent.json") none none "required_properties"
        "properties" "Ghost" =
      [ { file := "categories/Agent.json", type := "missing-reference",
          message := "Missing reference in field \"required_properties\": \"Ghost\" does not exist in properties" } ] := by
  constructor
  · exact Eq.trans
      (validateReferences_check_order.1 _ _ _ _ _ _ _ _ _ _ rfl rfl) (by decide)
  · exact Eq.trans
      (validateReferences_check_order.2.1 _ _ _ _ _ _ _ _ _ _ (by decide) (by decide))
      (by decide)

theorem getModuleScope_self_mem {G : DGraph} {sm : String} {scope : List String}
    (h : getModuleScope G sm = some scope) : sm ∈ scope := by
  unfold getModuleScope at h
  by_cases hc :
      (reachableSet G sm).any (fun c => (dependenciesOfList G c).contains c) = true
  · rw [if_pos hc] at h; cases h
  · rw [if_neg hc] at h
    have := Option.some.inj h
    rw [← this]
    exact List.mem_cons_self _ _

/-- C4: with the validator's own context (`sourceModuleId` looked up in
the reverse index, `moduleScope` resolved by `scopeFor`), a reference
produces a `scope-violation` error if and only if the source type is a
module-member type, the target type is not `modules`, the source has an
owning module with a determinate scope, the target exists and has an
owning module, and that module is outside the scope; in every other case
the scope check is silently skipped. -/
theorem scope_violation_iff (idx : EntityIndex) (G : DGraph) (rev : StrMap)
    (ty eid : String) (e : Entity) (fn tt refId : String) :
    (∃ err ∈ checkOneRef idx rev ty eid e (mGet rev (ty ++ ":" ++ eid))
        (scopeFor G rev ty eid) fn tt refId, err.type = "scope-violation")
    ↔ (ty ∈ scopeCheckTypes ∧ tt ≠ "modules" ∧
        ∃ sm, mGet rev (ty ++ ":" ++ eid) = some sm ∧
          ∃ scope, getModuleScope G sm = some scope ∧
            idxHas idx tt refId = true ∧
            ∃ tm, mGet rev (tt ++ ":" ++ refId) = some tm ∧ tm ∉ scope) := by
  unfold checkOneRef
  by_cases hself : refId = eid ∧ tt = ty
  · rw [if_pos hself]
    constructor
    · rintro ⟨err, hmem, htype⟩
      rw [List.mem_singleton] at hmem
      subst hmem
      have hne : ("self-reference" : String) ≠ "scope-violation" := by decide
      exact absurd htype hne
    · rintro ⟨hty, hmod, sm, hsm, scope, hscope, hhas, tm, htm, htms⟩
      exfalso
      rw [hself.1, hself.2, hsm] at htm
      have htmsm : tm = sm := (Option.some.inj htm).symm
      exact htms (htmsm ▸ getModuleScope_self_mem hscope)
  · rw [if_neg hself]
    by_cases hhas : idxHas idx tt refId = false
    · rw [if_pos hhas]
      constructor
      · rintro ⟨err, hmem, htype⟩
        rw [List.mem_singleton] at hmem
        subst hmem
        have hne : ("missing-reference" : String) ≠ "scope-violation" := by decide
        exact absurd htype hne
      · rintro ⟨_, _, _, _, _, _, hhas2, _⟩
        rw [hhas2] at hhas
        cases hhas
    · rw [if_neg hhas]
      have hhas' : idxHas idx tt refId = true := by
        revert hhas; cases idxHas idx tt refId <;> simp
      cases hscopeFor : scopeFor G rev ty eid with
      | none =>
          dsimp only
          constructor
          · rintro ⟨err, hmem, _⟩
            exact absurd hmem (List.not_mem_nil err)
          · rintro ⟨hty, hmod, sm, hsm, scope, hscope, _, _⟩
            exfalso
            unfold scopeFor at hscopeFor
            rw [hsm] at hscopeFor
            dsimp only at hscopeFor
            rw [if_pos hty, hscope] at hscopeFor
            cases hscopeFor
      | some scope =>
          dsimp only
          have hscopeData : ∃ sm, mGet rev (ty ++ ":" ++ eid) = some sm ∧
              getModuleScope G sm = some scope := by
            unfold scopeFor at hscopeFor
            cases hg : mGet rev (ty ++ ":" ++ eid) with
            | none =>
                rw [hg] at hscopeFor
                dsimp only at hscopeFor
                cases hscopeFor
            | some sm0 =>
                rw [hg] at hscopeFor
                dsimp only at hscopeFor
                by_cases hty : ty ∈ scopeCheckTypes
                · rw [if_pos hty] at hscopeFor
                  exact ⟨sm0, rfl, hscopeFor⟩
                · rw [if_neg hty] at hscopeFor; cases hscopeFor
          by_cases hcond : ty ∈ scopeCheckTypes ∧ tt ≠ "modules"
          · rw [if_pos hcond]
            cases htgt : mGet rev (tt ++ ":" ++ refId) with
            | none =>
                dsimp only
                constructor
                · rintro ⟨err, hmem, _⟩
                  exact absurd hmem (List.not_mem_nil err)
                · rintro ⟨_, _, sm, hsm, scope2, _, _, tm, htm, _⟩
                  cases htm
            | some tm =>
                dsimp only
                by_cases hmem : tm ∉ scope
                · rw [if_pos hmem]
                  constructor
                  · intro _
                    rcases hscopeData with ⟨sm, hsm, hgms⟩
                    exact ⟨hcond.1, hcond.2, sm, hsm, scope, hgms, hhas', tm, rfl, hmem⟩
                  · intro _
                    exact ⟨_, List.mem_singleton_self _, rfl⟩
                · rw [if_neg hmem]
                  constructor
                  · rintro ⟨err, hm, _⟩
                    exact absurd hm (List.not_mem_nil err)
                  · rintro ⟨_, _, sm, hsm, scope2, hgms2, _, tm2, htm2, htms2⟩
                    exfalso
                    rcases hscopeData with ⟨sm0, hsm0, hgms0⟩
                    rw [hsm0] at hsm
                    have hsmeq : sm = sm0 := (Option.some.inj hsm).symm
                    rw [hsmeq, hgms0] at hgms2
                    have hsc : scope2 = scope := (Option.some.inj hgms2).symm
                    have htmeq : tm2 = tm := (Option.some.inj htm2).symm
                    rw [hsc, htmeq] at htms2
                    exact hmem htms2
          · rw [if_neg hcond]
            constructor
            · rintro ⟨err, hm, _⟩
              exact absurd hm (List.not_mem_nil err)
            · rintro ⟨hty, hmod, _⟩
              exact absurd ⟨hty, hmod⟩ hcond

/-- The bump entries available to a module after a full cascade: its own
input entry together with the input entries of all its transitive
dependencies. -/
def poolOf (G : DGraph) (m0 : BumpMap) (b : String) : List Bump :=
  (b :: dependenciesOfList G b).filterMap (fun x => mGet m0 x)

/-- Maximum of a bump list as an optional value: `none` for the empty
list. -/
def optMax (l : List Bump) : Option Bump :=
  if l = [] then none else some (maxBumpType l)

theorem optMax_eq_none_iff {l : List Bump} : optMax l = none ↔ l = [] := by
  unfold optMax
  by_cases h : l = [] <;> simp [h]

theorem optMax_eq_some_iff {l : List Bump} {v : Bump} :
    optMax l = some v ↔ l ≠ [] ∧ maxBumpType l = v := by
  unfold optMax
  by_cases h : l = [] <;> simp [h]

theorem self_mem_poolOf {G : DGraph} {m0 : BumpMap} {b : String} {v : Bump}
    (h : mGet m0 b = some v) : v ∈ poolOf G m0 b :=
  List.mem_filterMap.mpr ⟨b, List.mem_cons_self _ _, h⟩

theorem dep_mem_poolOf {G : DGraph} {m0 : BumpMap} {b d : String} {v : Bump}
    (hd : d ∈ dependenciesOfList G b) (h : mGet m0 d = some v) :
    v ∈ poolOf G m0 b :=
  List.mem_filterMap.mpr ⟨d, List.mem_cons_of_mem _ hd, h⟩

theorem mem_poolOf_iff {G : DGraph} {m0 : BumpMap} {b : String} {v : Bump} :
    v ∈ poolOf G m0 b ↔
      mGet m0 b = some v ∨ ∃ d ∈ dependenciesOfList G b, mGet m0 d = some v := by
  unfold poolOf
  rw [List.mem_filterMap]
  constructor
  · rintro ⟨x, hx, hv⟩
    rcases List.mem_cons.mp hx with hx | hx
    · exact Or.inl (hx ▸ hv)
    · exact Or.inr ⟨x, hx, hv⟩
  · rintro (h | ⟨d, hd, hv⟩)
    · exact ⟨b, List.mem_cons_self _ _, h⟩
    · exact ⟨d, List.mem_cons_of_mem _ hd, hv⟩

/-- Pools of transitive dependencies are contained in the pool of the
dependent. -/
theorem poolOf_subset {G : DGraph} {m0 : BumpMap} {m d : String}
    (hd : d ∈ dependenciesOfList G m) : poolOf G m0 d ⊆ poolOf G m0 m := by
  intro w hw
  rcases mem_poolOf_iff.mp hw with hw | ⟨x, hx, hw⟩
  · exact dep_mem_poolOf hd hw
  · have hra : Reaches G m x :=
      Reaches.trans (mem_dependenciesOfList.mp hd) (mem_dependenciesOfList.mp hx)
    exact dep_mem_poolOf (mem_dependenciesOfList.mpr hra) hw

theorem cascadeStep_get_other (G : DGraph) (σ : BumpMap) (m b : String)
    (hb : b ≠ m) : mGet (cascadeStep G σ m) b = mGet σ b := by
  unfold cascadeStep
  by_cases h :
      0 < ((dependenciesOfList G m).filterMap (fun depId => mGet σ depId)).length
  · simp only [h, if_pos]
    cases mGet σ m with
    | some cur => exact mGet_mSet_other _ _ _ _ hb
    | none => exact mGet_mSet_other _ _ _ _ hb
  · simp only [h, if_neg, if_false]

/-- Core step computation: if every transitive dependency already carries
the max of its pool and the module itself still carries its input entry,
then after the step the module carries the max of its own pool. -/
theorem cascadeStep_value (G : DGraph) (m0 σ : BumpMap) (m : String)
    (hdeps : ∀ d ∈ dependenciesOfList G m, mGet σ d = optMax (poolOf G m0 d))
    (hm : mGet σ m = mGet m0 m) :
    mGet (cascadeStep G σ m) m = optMax (poolOf G m0 m) := by
  unfold cascadeStep
  have hdepBumps : ∀ v : Bump,
      v ∈ (dependenciesOfList G m).filterMap (fun depId => mGet σ depId) ↔
      ∃ d ∈ dependenciesOfList G m,
        poolOf G m0 d ≠ [] ∧ v = maxBumpType (poolOf G m0 d) := by
    intro v
    rw [List.mem_filterMap]
    constructor
    · rintro ⟨d, hd, hv⟩
      rw [hdeps d hd] at hv
      rcases optMax_eq_some_iff.mp hv with ⟨hne, hmax⟩
      exact ⟨d, hd, hne, hmax.symm⟩
    · rintro ⟨d, hd, hne, hv⟩
      exact ⟨d, hd, by rw [hdeps d hd]; exact optMax_eq_some_iff.mpr ⟨hne, hv.symm⟩⟩
  by_cases hlen :
      0 < ((dependenciesOfList G m).filterMap (fun depId => mGet σ depId)).length
  · simp only [hlen, if_pos]
    have hne : (dependenciesOfList G m).filterMap (fun depId => mGet σ depId) ≠ [] := by
      intro hh
      rw [hh] at hlen
      simp at hlen
    have hdepLe : ∀ v ∈ (dependenciesOfList G m).filterMap (fun depId => mGet σ depId),
        bLe v (maxBumpType (poolOf G m0 m)) := by
      intro v hv
      rcases (hdepBumps v).mp hv with ⟨d, hd, hpne, hveq⟩
      have hvm : v ∈ poolOf G m0 d := hveq ▸ maxBumpType_mem hpne
      exact le_maxBumpType (poolOf_subset hd hvm)
    have hpoolm_ne : poolOf G m0 m ≠ [] := by
      rcases List.exists_mem_of_ne_nil _ hne with ⟨v, hv⟩
      rcases (hdepBumps v).mp hv with ⟨d, hd, hpne, hveq⟩
      intro hh
      exact List.not_mem_nil v (hh ▸ poolOf_subset hd (hveq ▸ maxBumpType_mem hpne))
    rw [hm]
    cases hcur : mGet m0 m with
    | some cur =>
        rw [mGet_mSet_self]
        rw [optMax_eq_some_iff.mpr ⟨hpoolm_ne, ?_⟩]
        rw [maxBumpType_pair]
        apply bLe_antisymm
        · apply maxBumpType_le
          intro v hv
          rcases mem_poolOf_iff.mp hv with hv | ⟨d, hd, hv⟩
          · have : v = cur := by rw [hcur] at hv; exact (Option.some.inj hv).symm
            exact this ▸ bLe_bmax_left _ _
          · have hvp : v ∈ poolOf G m0 d := self_mem_poolOf hv
            have hpdne : poolOf G m0 d ≠ [] := by
              intro hh
              exact List.not_mem_nil v (hh ▸ hvp)
            have hmem2 : maxBumpType (poolOf G m0 d) ∈
                (dependenciesOfList G m).filterMap (fun depId => mGet σ depId) :=
              (hdepBumps _).mpr ⟨d, hd, hpdne, rfl⟩
            exact bLe_trans (bLe_trans (le_maxBumpType hvp) (le_maxBumpType hmem2))
              (bLe_bmax_right _ _)
        · apply bmax_le
          · exact le_maxBumpType (self_mem_poolOf hcur)
          · exact maxBumpType_le hdepLe
    | none =>
        rw [mGet_mSet_self]
        rw [optMax_eq_some_iff.mpr ⟨hpoolm_ne, ?_⟩]
        apply bLe_antisymm
        · apply maxBumpType_le
          intro v hv
          rcases mem_poolOf_iff.mp hv with hv | ⟨d, hd, hv⟩
          · rw [hcur] at hv; cases hv
          · have hvp : v ∈ poolOf G m0 d := self_mem_poolOf hv
            have hpdne : poolOf G m0 d ≠ [] := by
              intro hh
              exact List.not_mem_nil v (hh ▸ hvp)
            have hmem2 : maxBumpType (poolOf G m0 d) ∈
                (dependenciesOfList G m).filterMap (fun depId => mGet σ depId) :=
              (hdepBumps _).mpr ⟨d, hd, hpdne, rfl⟩
            exact bLe_trans (le_maxBumpType hvp) (le_maxBumpType hmem2)
        · exact maxBumpType_le hdepLe
  · simp only [hlen, if_neg, if_false]
    have hempty : (dependenciesOfList G m).filterMap (fun depId => mGet σ depId) = [] := by
      cases hc : (dependenciesOfList G m).filterMap (fun depId => mGet σ depId) with
      | nil => rfl
      | cons v t => rw [hc] at hlen; simp at hlen
    have hdnone : ∀ d ∈ dependenciesOfList G m, mGet m0 d = none := by
      intro d hd
      cases hw : mGet m0 d with
      | none => rfl
      | some w =>
          exfalso
          have hwp : w ∈ poolOf G m0 d := self_mem_poolOf hw
          have hpdne : poolOf G m0 d ≠ [] := by
            intro hh
            exact List.not_mem_nil w (hh ▸ hwp)
          have : maxBumpType (poolOf G m0 d) ∈
              (dependenciesOfList G m).filterMap (fun depId => mGet σ depId) :=
            (hdepBumps _).mpr ⟨d, hd, hpdne, rfl⟩
          rw [hempty] at this
          exact List.not_mem_nil _ this
    have hpool : poolOf G m0 m = match mGet m0 m with
        | some v => [v]
        | none => [] := by
      unfold poolOf
      rw [List.filterMap_cons]
      have hrest : (dependenciesOfList G m).filterMap (fun x => mGet m0 x) = [] :=
        List.filterMap_eq_nil.mpr hdnone
      cases hc : mGet m0 m with
      | none => simpa [hc] using hrest
      | some v => simpa [hc] using hrest
    rw [hm]
    cases hc : mGet m0 m with
    | none => rw [hpool]; simp [hc, optMax]
    | some v =>
        rw [hpool]
        have hone : maxBumpType [v] = v := by cases v <;> decide
        simp [hc, optMax, hone]

/-- Invariant of the cascade loop over a topological order: processed
modules carry the max of their pool, unprocessed modules still carry
their input entry. -/
theorem cascade_fold_inv (G : DGraph) (hwf : G.WF) (hacyc : ¬ hasCycle G)
    (m0 : BumpMap) :
    ∀ (todo done : List String) (σ : BumpMap),
      sortedNodes G = done ++ todo →
      (∀ b ∈ done, mGet σ b = optMax (poolOf G m0 b)) →
      (∀ b, b ∉ done → mGet σ b = mGet m0 b) →
      (∀ b ∈ done ++ todo, mGet (todo.foldl (cascadeStep G) σ) b = optMax (poolOf G m0 b)) ∧
      (∀ b, b ∉ done ++ todo → mGet (todo.foldl (cascadeStep G) σ) b = mGet m0 b) := by
  intro todo
  induction todo with
  | nil =>
      intro done σ hsplit h1 h2
      constructor
      · intro b hb
        exact h1 b (by simpa using hb)
      · intro b hb
        exact h2 b (by simpa using hb)
  | cons m rest ih =>
      intro done σ hsplit h1 h2
      have hnodup : (done ++ m :: rest).Nodup := hsplit ▸ sortedNodes_nodup hwf
      have hmdone : m ∉ done := by
        rcases List.nodup_append.mp hnodup with ⟨_, _, hdisj⟩
        intro hmem
        exact hdisj hmem (List.mem_cons_self m rest)
      have hdords : ∀ d, Reaches G m d → d ∈ done :=
        fun d hd => deps_before hwf hacyc hsplit hd
      have hstep1 : ∀ b ∈ done ++ [m],
          mGet (cascadeStep G σ m) b = optMax (poolOf G m0 b) := by
        intro b hb
        rcases List.mem_append.mp hb with hb | hb
        · have hbm : b ≠ m := fun hh => hmdone (hh ▸ hb)
          rw [cascadeStep_get_other G σ m b hbm]
          exact h1 b hb
        · have hbm : b = m := by simpa using hb
          subst hbm
          apply cascadeStep_value
          · intro d hd
            exact h1 d (hdords d (mem_dependenciesOfList.mp hd))
          · exact h2 b hmdone
      have hstep2 : ∀ b, b ∉ done ++ [m] → mGet (cascadeStep G σ m) b = mGet m0 b := by
        intro b hb
        have hbm : b ≠ m := by
          intro hh
          exact hb (List.mem_append.mpr (Or.inr (by simp [hh])))
        have hbd : b ∉ done := fun hh => hb (List.mem_append.mpr (Or.inl hh))
        rw [cascadeStep_get_other G σ m b hbm]
        exact h2 b hbd
      have hsplit' : sortedNodes G = (done ++ [m]) ++ rest := by
        rw [hsplit]
        simp
      have := ih (done ++ [m]) (cascadeStep G σ m) hsplit' hstep1 hstep2
      constructor
      · intro b hb
        apply this.1
        rcases List.mem_append.mp hb with hb | hb
        · exact List.mem_append.mpr (Or.inl (List.mem_append.mpr (Or.inl hb)))
        · rcases List.mem_cons.mp hb with hb | hb
          · exact List.mem_append.mpr (Or.inl (List.mem_append.mpr (Or.inr (by simp [hb]))))
          · exact List.mem_append.mpr (Or.inr hb)
      · intro b hb
        apply this.2
        intro hmem
        apply hb
        rcases List.mem_append.mp hmem with hm2 | hm2
        · rcases List.mem_append.mp hm2 with hm3 | hm3
          · exact List.mem_append.mpr (Or.inl hm3)
          · exact List.mem_append.mpr (Or.inr (by simpa using Or.inl (by simpa using hm3)))
        · exact List.mem_append.mpr (Or.inr (List.mem_cons_of_mem m hm2))

/-- C2 (amended): on a well-formed acyclic graph, after the cascade every
module's entry equals the optional maximum of its pool — its own input
entry together with the input entries of all its direct and transitive
dependencies — and a module with none of these (in particular one with no
dependencies and no input entry) is absent from the result. -/
theorem propagateDependencyCascade_acyclic (G : DGraph) (m0 : BumpMap)
    (hwf : G.WF) (hacyc : ¬ hasCycle G) (b : String) :
    mGet (propagateDependencyCascade G m0) b = optMax (poolOf G m0 b) := by
  have hfound : hasCycleFound G = false := by
    cases hc : hasCycleFound G with
    | false => rfl
    | true => exact absurd ((hasCycle_iff_found hwf).mpr hc) hacyc
  unfold propagateDependencyCascade overallOrder
  rw [hfound]
  show mGet ((sortedNodes G).foldl (cascadeStep G) m0) b = optMax (poolOf G m0 b)
  have hinv := cascade_fold_inv G hwf hacyc m0 (sortedNodes G) [] m0 rfl
    (fun b hb => absurd hb (List.not_mem_nil b)) (fun b _ => rfl)
  by_cases hb : b ∈ sortedNodes G
  · exact hinv.1 b (by simpa using hb)
  · rw [hinv.2 b (by simpa using hb)]
    have hnn : b ∉ G.nodes := fun hh => hb (mem_sortedNodes.mpr hh)
    have hdeps : dependenciesOfList G b = [] := by
      rw [List.eq_nil_iff_forall_not_mem]
      intro d hd
      have hr := mem_dependenciesOfList.mp hd
      exact hnn (reaches_src_mem_nodes hwf hr)
    unfold poolOf
    rw [hdeps, List.filterMap_cons]
    cases hc : mGet m0 b with
    | none => simp [optMax]
    | some v =>
        have hone : maxBumpType [v] = v := by cases v <;> decide
        simp [optMax, hone]

/-- Acyclic graph where module B depends on both A and C. -/
def cascadeCexGraph : DGraph :=
  { nodes := ["A", "C", "B"], edges := [("B", "A"), ("B", "C")] }

/-- Input bumps: A minor, C major, B absent. -/
def cascadeCexBumps : BumpMap := [("A", Bump.minor), ("C", Bump.major)]

theorem cascadeCexGraph_acyclic : ¬ hasCycle cascadeCexGraph := by
  intro h
  have hf := (hasCycle_iff_found (by decide : DGraph.WF cascadeCexGraph)).mp h
  have hfalse : hasCycleFound cascadeCexGraph = false := by decide
  rw [hfalse] at hf
  cases hf

/-- Counterexample to C2 as stated: in an acyclic graph B depends
(directly) on A, A's input bump is minor and B has none, so the claim
demands B's result be `maxBumpType` of B's own bump together with A's,
i.e. minor — but B also depends on C with bump major, and the code gives
B major. -/
theorem cascade_single_dep_counterexample :
    DGraph.WF cascadeCexGraph ∧
    ¬ hasCycle cascadeCexGraph ∧
    Reaches cascadeCexGraph "B" "A" ∧
    mGet cascadeCexBumps "A" = some Bump.minor ∧
    mGet cascadeCexBumps "B" = none ∧
    maxBumpType [Bump.minor] = Bump.minor ∧
    mGet (propagateDependencyCascade cascadeCexGraph cascadeCexBumps) "B" =
      some Bump.major ∧
    Bump.minor ≠ Bump.major := by
  refine ⟨by decide, cascadeCexGraph_acyclic,
    Reaches.single (by decide), by decide, by decide, by decide, ?_, by decide⟩
  decide

/-- Witness for the amended C2: the pool characterization evaluated on the
concrete two-dependency graph. -/
theorem propagateDependencyCascade_acyclic_witness :
    DGraph.WF cascadeCexGraph ∧ ¬ hasCycle cascadeCexGraph ∧
    mGet (propagateDependencyCascade cascadeCexGraph cascadeCexBumps) "B" =
      optMax (poolOf cascadeCexGraph cascadeCexBumps "B") ∧
    optMax (poolOf cascadeCexGraph cascadeCexBumps "B") = some Bump.major := by
  refine ⟨by decide, cascadeCexGraph_acyclic, ?_, by decide⟩
  exact propagateDependencyCascade_acyclic cascadeCexGraph cascadeCexBumps
    (by decide) cascadeCexGraph_acyclic "B"

theorem splitOnChar_no_sep {sep : Char} {l : List Char} (h : sep ∉ l) :
    splitOnChar sep l = [l] := by
  induction l with
  | nil => rfl
  | cons c t ih =>
      have hc : ¬ c = sep := fun hh => h (hh ▸ List.mem_cons_self c t)
      have ht : sep ∉ t := fun hh => h (List.mem_cons_of_mem c hh)
      unfold splitOnChar
      rw [if_neg hc, ih ht]

theorem splitOnChar_append {sep : Char} {l1 l2 : List Char} (h : sep ∉ l1) :
    splitOnChar sep (l1 ++ sep :: l2) = l1 :: splitOnChar sep l2 := by
  induction l1 with
  | nil =>
      show splitOnChar sep (sep :: l2) = [] :: splitOnChar sep l2
      conv_lhs => rw [splitOnChar]
      rw [if_pos rfl]
  | cons c t ih =>
      have hc : ¬ c = sep := fun hh => h (hh ▸ List.mem_cons_self c t)
      have ht : sep ∉ t := fun hh => h (List.mem_cons_of_mem c hh)
      show splitOnChar sep (c :: (t ++ sep :: l2)) = (c :: t) :: splitOnChar sep l2
      conv_lhs => rw [splitOnChar]
      rw [if_neg hc, ih ht]

theorem take_five_of_prefix_append {p l r : List Char} (hlen : 5 ≤ l.length)
    (hp : p.length = 5) (h : p <+: l ++ r) : p <+: l := by
  rcases h with ⟨s, hs⟩
  have htake : (l ++ r).take 5 = l.take 5 := by
    rw [List.take_append_eq_append_take]
    have : 5 - l.length = 0 := by omega
    simp [this]
  have hp2 : p = (l ++ r).take 5 := by
    rw [← hs]
    rw [List.take_append_eq_append_take]
    have : 5 - p.length = 0 := by omega
    simp [this, hp]
  exact hp2 ▸ htake ▸ List.take_prefix 5 l

theorem stripFirst_append_suffix {idl : List Char} (h : ¬ jsonSuffix <:+: idl) :
    stripFirst (idl ++ jsonSuffix) = idl := by
  induction idl with
  | nil => decide
  | cons c t ih =>
      have hih : ¬ jsonSuffix <:+: t := by
        intro hh
        exact h (hh.trans (List.suffix_cons c t).isInfix)
      have hninf : ¬ jsonSuffix <+: (c :: t) := fun hh => h hh.isInfix
      show stripFirst (c :: (t ++ jsonSuffix)) = c :: t
      have hcond : List.isPrefixOf jsonSuffix (c :: (t ++ jsonSuffix)) = false := by
        by_cases hlen : 4 ≤ t.length
        · cases hpc : List.isPrefixOf jsonSuffix (c :: (t ++ jsonSuffix)) with
          | false => rfl
          | true =>
              exfalso
              have hpre : jsonSuffix <+: (c :: (t ++ jsonSuffix)) :=
                List.isPrefixOf_iff_prefix.mp hpc
              have : jsonSuffix <+: ((c :: t) ++ jsonSuffix) := by simpa using hpre
              exact hninf (take_five_of_prefix_append (by simp; omega) (by decide) this)
        · have hlt : t.length < 4 := by omega
          cases t with
          | nil => simp [jsonSuffix, List.isPrefixOf]
          | cons a t2 =>
              cases t2 with
              | nil => simp [jsonSuffix, List.isPrefixOf]
              | cons b t3 =>
                  cases t3 with
                  | nil => simp [jsonSuffix, List.isPrefixOf]
                  | cons d t4 =>
                      cases t4 with
                      | nil => simp [jsonSuffix, List.isPrefixOf]
                      | cons e t5 => exact absurd hlt (by simp)
      unfold stripFirst
      rw [hcond]
      show c :: stripFirst (t ++ jsonSuffix) = c :: t
      rw [ih hih]

/-- The entries of an optional bump as a list. -/
def optBumpList : Option Bump → List Bump
  | none => []
  | some v => [v]

theorem optMax_optBumpList (o : Option Bump) : optMax (optBumpList o) = o := by
  cases o with
  | none => rfl
  | some v =>
      show optMax [v] = some v
      cases v <;> decide

theorem maxBumpType_bmax_cons (e c : Bump) (r : List Bump) :
    maxBumpType (bmax e c :: r) = maxBumpType (e :: c :: r) := by
  rw [maxBumpType_cons_eq_foldl, maxBumpType_cons_eq_foldl]
  rfl

theorem optMax_cons (h : Bump) (t : List Bump) :
    optMax (h :: t) = some (maxBumpType (h :: t)) := by
  unfold optMax
  rw [if_neg (List.cons_ne_nil h t)]

/-- Value of the module-bump aggregation fold at one module: the optional
max of the accumulator's entry together with the change types of the
changes whose derived key resolves to that module. -/
theorem modBumpsFold_get (rev : StrMap) :
    ∀ (changes : List ChangeRecord) (acc : BumpMap) (mod : String),
      mGet (changes.foldl (moduleBumpStep rev) acc) mod =
        optMax (optBumpList (mGet acc mod) ++
          (changes.filter (fun ch => mGet rev (deriveKey ch.file) == some mod)).map
            (fun ch => ch.changeType)) := by
  intro changes
  induction changes with
  | nil =>
      intro acc mod
      show mGet acc mod = optMax (optBumpList (mGet acc mod) ++ [])
      rw [List.append_nil, optMax_optBumpList]
  | cons ch rest ih =>
      intro acc mod
      rw [List.foldl_cons, ih (moduleBumpStep rev acc ch) mod]
      cases hk : mGet rev (deriveKey ch.file) with
      | none =>
          have hstep : moduleBumpStep rev acc ch = acc := by
            unfold moduleBumpStep; rw [hk]
          have hpred : (mGet rev (deriveKey ch.file) == some mod) = false := by
            rw [hk]; rfl
          rw [hstep, List.filter_cons, hpred]
          simp only [Bool.false_eq_true, if_false]
      | some mid =>
          by_cases hmid : mid = mod
          · subst hmid
            have hpred : (mGet rev (deriveKey ch.file) == some mid) = true := by
              rw [hk]; simp
            rw [List.filter_cons, hpred]
            simp only [if_true, List.map_cons]
            cases hacc : mGet acc mid with
            | some e =>
                have hstep : moduleBumpStep rev acc ch =
                    mSet acc mid (maxBumpType [e, ch.changeType]) := by
                  unfold moduleBumpStep; rw [hk]; dsimp only; rw [hacc]
                rw [hstep, mGet_mSet_self]
                show optMax ([maxBumpType [e, ch.changeType]] ++ _) =
                  optMax ([e] ++ ch.changeType :: _)
                rw [maxBumpType_pair]
                rw [List.singleton_append, List.singleton_append]
                rw [optMax_cons, optMax_cons, maxBumpType_bmax_cons]
            | none =>
                have hstep : moduleBumpStep rev acc ch =
                    mSet acc mid ch.changeType := by
                  unfold moduleBumpStep; rw [hk]; dsimp only; rw [hacc]
                rw [hstep, mGet_mSet_self]
                show optMax ([ch.changeType] ++ _) = optMax ([] ++ ch.changeType :: _)
                rw [List.singleton_append, List.nil_append]
          · have hpred : (mGet rev (deriveKey ch.file) == some mod) = false := by
              rw [hk]; simp [hmid]
            have hstep : mGet (moduleBumpStep rev acc ch) mod = mGet acc mod := by
              unfold moduleBumpStep
              rw [hk]
              dsimp only
              cases mGet acc mid with
              | some e => exact mGet_mSet_other _ _ _ _ (fun hh => hmid hh.symm)
              | none => exact mGet_mSet_other _ _ _ _ (fun hh => hmid hh.symm)
            rw [hstep, List.filter_cons, hpred]
            simp only [Bool.false_eq_true, if_false]

/-- On a file path of the documented shape with a slash-free type, and an
id containing neither `/` nor the substring `.json`, the path parsing of
`calculateModuleBumps` recovers exactly the type and id. -/
theorem deriveEntityTypeId_clean (ty id : String)
    (hty : ('/' : Char) ∉ ty.toList) (hid : ('/' : Char) ∉ id.toList)
    (hinf : ¬ jsonSuffix <:+: id.toList) :
    deriveEntityTypeId (ty ++ "/" ++ id ++ ".json") = (ty, id) := by
  have hlist : (ty ++ "/" ++ id ++ ".json").toList =
      ty.toList ++ '/' :: (id.toList ++ jsonSuffix) := by
    show (ty ++ "/" ++ id ++ ".json").data =
      ty.data ++ '/' :: (id.data ++ jsonSuffix)
    rw [String.data_append, String.data_append, String.data_append]
    show ty.data ++ ['/'] ++ id.data ++ jsonSuffix = _
    simp
  have hsep2 : ('/' : Char) ∉ id.toList ++ jsonSuffix := by
    intro hh
    rcases List.mem_append.mp hh with hh | hh
    · exact hid hh
    · revert hh; decide
  unfold deriveEntityTypeId
  rw [hlist, splitOnChar_append hty, splitOnChar_no_sep hsep2]
  show (String.mk ty.toList, String.mk (stripFirst (id.toList ++ jsonSuffix))) = (ty, id)
  rw [stripFirst_append_suffix hinf]
  rfl

/-- C3 (amended): for change records whose file is
`<entityType>/<id>.json` with a slash-free type and an id containing
neither `/` nor `.json`, `calculateModuleBumps` aggregates each record's
change type, via `maxBumpType`, onto exactly the module the reverse index
assigns to `entityType:id` — records with no owning module contribute
nothing — and `calculateVersionCascade` returns exactly the unowned
records as `orphanChanges`. -/
theorem calculateModuleBumps_clean_spec (idx : EntityIndex)
    (changes : List ChangeRecord) (ids : ChangeRecord → String)
    (hclean : ∀ ch ∈ changes,
      ch.file = ch.entityType ++ "/" ++ ids ch ++ ".json" ∧
      ('/' : Char) ∉ ch.entityType.toList ∧ ('/' : Char) ∉ (ids ch).toList ∧
      ¬ jsonSuffix <:+: (ids ch).toList) :
    (∀ mod : String,
      mGet (calculateModuleBumps idx changes) mod =
        optMax ((changes.filter (fun ch =>
          mGet (buildReverseModuleIndex idx) (ch.entityType ++ ":" ++ ids ch)
            == some mod)).map (fun ch => ch.changeType))) ∧
    (calculateVersionCascade idx changes).orphanChanges =
      changes.filter (fun ch =>
        ! mHas (buildReverseModuleIndex idx) (ch.entityType ++ ":" ++ ids ch)) := by
  have hkey : ∀ ch ∈ changes,
      deriveKey ch.file = ch.entityType ++ ":" ++ ids ch := by
    intro ch hch
    rcases hclean ch hch with ⟨hfile, hty, hid, hinf⟩
    unfold deriveKey
    rw [hfile, deriveEntityTypeId_clean _ _ hty hid hinf]
  constructor
  · intro mod
    unfold calculateModuleBumps
    rw [modBumpsFold_get (buildReverseModuleIndex idx) changes [] mod]
    have hfe : changes.filter (fun ch =>
          mGet (buildReverseModuleIndex idx) (deriveKey ch.file) == some mod) =
        changes.filter (fun ch =>
          mGet (buildReverseModuleIndex idx) (ch.entityType ++ ":" ++ ids ch)
            == some mod) := by
      apply List.filter_congr
      intro ch hch
      rw [hkey ch hch]
    rw [hfe]
    rfl
  · unfold calculateVersionCascade
    by_cases hc : changes.length = 0
    · have : changes = [] := List.length_eq_zero.mp hc
      subst this
      simp
    · rw [if_neg hc]
      show changes.filter (fun change =>
          ! mHas (buildReverseModuleIndex idx) (deriveKey change.file)) = _
      apply List.filter_congr
      intro ch hch
      rw [hkey ch hch]

/-- Entity index whose module M owns the nested template id
`Property/Page`, as the repository's validator supports for templates. -/
def nestedIdx : EntityIndex :=
  { categories := [], properties := [], subobjects := [], templates :=
      [("Property/Page",
        Entity.mk [] "templates/Property/Page.json")],
    modules :=
      [("M", Entity.mk [("templates", RefVal.arr ["Property/Page"])] "modules/M.json")],
    bundles := [] }

/-- Change record for the nested template file. -/
def nestedChange : ChangeRecord :=
  { file := "templates/Property/Page.json", entityType := "templates",
    changeType := Bump.major }

/-- Counterexample to C3 as stated: the change's file has the documented
form `templates/<id>.json` with id `Property/Page`, the reverse index
lists that entity as a member of module M, yet the record contributes
nothing to the module bumps and is returned as an orphan, because the
code derives the id from the last path segment only. -/
theorem calculateModuleBumps_nested_id_counterexample :
    nestedChange.file = "templates" ++ "/" ++ "Property/Page" ++ ".json" ∧
    mGet (buildReverseModuleIndex nestedIdx) "templates:Property/Page" = some "M" ∧
    calculateModuleBumps nestedIdx [nestedChange] = [] ∧
    (calculateVersionCascade nestedIdx [nestedChange]).orphanChanges = [nestedChange] := by
  refine ⟨rfl, by decide, by decide, by decide⟩

/-- Entity index with module Core owning category Agent. -/
def cleanIdx : EntityIndex :=
  { categories := [("Agent", Entity.mk [] "categories/Agent.json")],
    properties := [], subobjects := [], templates := [],
    modules :=
      [("Core", Entity.mk [("categories", RefVal.arr ["Agent"])] "modules/Core.json")],
    bundles := [] }

/-- Change record for the Agent category file. -/
def cleanChange : ChangeRecord :=
  { file := "categories/Agent.json", entityType := "categories",
    changeType := Bump.major }

/-- Witness for the amended C3: a clean change on an owned entity is
attributed to its module and is not an orphan. -/
theorem calculateModuleBumps_clean_spec_witness :
    (∀ ch ∈ [cleanChange],
      ch.file = ch.entityType ++ "/" ++ "Agent" ++ ".json" ∧
      ('/' : Char) ∉ ch.entityType.toList ∧ ('/' : Char) ∉ "Agent".toList ∧
      ¬ jsonSuffix <:+: "Agent".toList) ∧
    mGet (calculateModuleBumps cleanIdx [cleanChange]) "Core" = some Bump.major ∧
    (calculateVersionCascade cleanIdx [cleanChange]).orphanChanges = [] := by
  have hclean : ∀ ch ∈ [cleanChange],
      ch.file = ch.entityType ++ "/" ++ (fun _ : ChangeRecord => "Agent") ch ++ ".json" ∧
      ('/' : Char) ∉ ch.entityType.toList ∧
      ('/' : Char) ∉ ((fun _ : ChangeRecord => "Agent") ch).toList ∧
      ¬ jsonSuffix <:+: ((fun _ : ChangeRecord => "Agent") ch).toList := by
    intro ch hch
    rw [List.mem_singleton] at hch
    subst hch
    exact ⟨rfl, by decide, by decide, by decide⟩
  have h := calculateModuleBumps_clean_spec cleanIdx [cleanChange]
    (fun _ => "Agent") hclean
  exact ⟨hclean, Eq.trans (h.1 "Core") (by decide), Eq.trans h.2 (by decide)⟩
